import Mathlib

/-!
# flatar: flattening a directory tree

A shallow embedding of `src/main.go` (`copyFile`, `flattenDirectory`) over an
explicit model of the directory tree below the root being flattened, followed
by theorems about the embedded code.

* A path is the list of its components below the root; `[]` is the root.
* A directory keeps its entries in the order in which a directory read reports
  them, which is the order `filepath.Walk` visits them in.
* Every system call whose error the code inspects inside `copyFile`, and
  `os.RemoveAll`, can fail on the say of an environment `Env`.
-/

namespace Flatar

/-- A file or directory name: one path component. -/
abbrev Name := String

/-- A path below the root, as the list of its components; `[]` is the root. -/
abbrev Path := List Name

/-- A node of the tree: a regular file with its bytes and mode bits, or a
directory with its entries in listing order. -/
inductive Node where
  | file (content : List Nat) (mode : Nat)
  | dir (entries : List (Name × Node))

/-- The entries of the root directory: the state of the file system below it. -/
abbrev FS := List (Name × Node)

/-- The errors the code builds with `fmt.Errorf`, one constructor per message. -/
inductive Err where
  | openSource (src : Path)
  | createDest (dst : Path)
  | copyContent
  | sourceInfo
  | accessPath (path : Path)
  | relativePath (path : Path)
  | copyFailed (src dst : Path) (cause : Err)
deriving DecidableEq

/-- The environment: which system calls fail for reasons the tree does not
show, how many bytes a failing stream has written, and the mode a newly
created file gets. -/
structure Env where
  openFails : Path → Bool
  createFails : Path → Bool
  streamFails : Path → Path → Option Nat
  statFails : Path → Bool
  chmodFails : Path → Bool
  removeFails : Path → Bool
  newMode : Nat

/-- The environment in which no system call fails; new files get mode 0644. -/
def noFaults : Env where
  openFails := fun _ => false
  createFails := fun _ => false
  streamFails := fun _ _ => none
  statFails := fun _ => false
  chmodFails := fun _ => false
  removeFails := fun _ => false
  newMode := 420

/-- Whether a node is a regular file. -/
def Node.isFile : Node → Bool
  | .file _ _ => true
  | .dir _ => false

/-- Whether a node is a directory (`info.IsDir()`). -/
def Node.isDir : Node → Bool
  | .file _ _ => false
  | .dir _ => true

/-- The first entry of a directory listing with the given name. -/
def getEntry : List (Name × Node) → Name → Option Node
  | [], _ => none
  | (k, n) :: rest, name => if k = name then some n else getEntry rest name

/-- Replace the entry with the given name, or add it at the end of the listing
when the directory has none. -/
def setEntry : List (Name × Node) → Name → Node → List (Name × Node)
  | [], name, v => [(name, v)]
  | (k, n) :: rest, name, v =>
    if k = name then (k, v) :: rest else (k, n) :: setEntry rest name v

/-- The node at a path, if there is one. -/
def find (es : FS) : Path → Option Node
  | [] => some (.dir es)
  | [k] => getEntry es k
  | k :: k' :: ks =>
    match getEntry es k with
    | some (.dir sub) => find sub (k' :: ks)
    | _ => none

/-- Put a node at a path whose parent directory exists. -/
def store (es : FS) : Path → Node → Option FS
  | [], _ => none
  | [k], v => some (setEntry es k v)
  | k :: k' :: ks, v =>
    match getEntry es k with
    | some (.dir sub) =>
      match store sub (k' :: ks) v with
      | some sub' => some (setEntry es k (.dir sub'))
      | none => none
    | _ => none

/-- Take a path and everything below it out of the tree. -/
def remove (es : FS) : Path → FS
  | [] => es
  | [k] => es.filter (fun e => decide (e.1 ≠ k))
  | k :: k' :: ks =>
    es.map (fun e =>
      if e.1 = k then
        match e.2 with
        | .dir sub => (e.1, .dir (remove sub (k' :: ks)))
        | .file c m => (e.1, .file c m)
      else e)

/-! ## System calls -/

/-- The call `os.Open(src)`: succeeds on an existing file or directory. -/
def osOpen (E : Env) (fs : FS) (src : Path) : Bool :=
  !E.openFails src && (find fs src).isSome

/-- The call `os.Create(dst)`: truncates an existing regular file, keeping its
mode, or creates an empty one; fails on a directory and where the parent
directory is missing. -/
def osCreate (E : Env) (fs : FS) (dst : Path) : Option FS :=
  if E.createFails dst then none
  else
    match find fs dst with
    | some (.dir _) => none
    | some (.file _ m) => store fs dst (.file [] m)
    | none => store fs dst (.file [] E.newMode)

/-- The bytes a read of the open source yields: what the file holds at the
time of the read; reading a directory is an error. -/
def readAll (fs : FS) (src : Path) : Option (List Nat) :=
  match find fs src with
  | some (.file c _) => some c
  | _ => none

/-- Set the bytes of the regular file at a path. -/
def writeAll (fs : FS) (dst : Path) (bytes : List Nat) : FS :=
  match find fs dst with
  | some (.file _ m) => (store fs dst (.file bytes m)).getD fs
  | _ => fs

/-- The call `io.Copy(destFile, sourceFile)`: on success the destination holds
every byte read from the source; on failure it holds the bytes written until
then. The flag says whether the call succeeded. -/
def ioCopy (E : Env) (fs : FS) (src dst : Path) : Bool × FS :=
  match readAll fs src with
  | none => (false, fs)
  | some bytes =>
    match E.streamFails src dst with
    | some k => (false, writeAll fs dst (bytes.take k))
    | none => (true, writeAll fs dst bytes)

/-- The call `os.Stat(path)`, giving the mode bits; a directory has none in
this model and reports 0. -/
def osStat (E : Env) (fs : FS) (path : Path) : Option Nat :=
  if E.statFails path then none
  else
    match find fs path with
    | some (.file _ m) => some m
    | some (.dir _) => some 0
    | none => none

/-- The call `os.Chmod(dst, mode)`; `none` when it fails. -/
def osChmod (E : Env) (fs : FS) (dst : Path) (mode : Nat) : Option FS :=
  if E.chmodFails dst then none
  else
    match find fs dst with
    | some (.file c _) => store fs dst (.file c mode)
    | _ => none

/-- The call `os.RemoveAll(path)`; the flag says whether it succeeded. A call
that fails is taken to have removed nothing: the real call may have removed
part of what lies below the path, and no theorem below speaks about the inside
of a directory whose removal failed. -/
def osRemoveAll (E : Env) (fs : FS) (path : Path) : Bool × FS :=
  if E.removeFails path then (false, fs) else (true, remove fs path)

/-! ## `copyFile` -/

/-- The function `copyFile(src, dst)` of `main.go`: the returned error, if any,
and the tree it leaves. -/
def copyFile (E : Env) (fs : FS) (src dst : Path) : Option Err × FS :=
  -- Open source file
  if !osOpen E fs src then (some (.openSource src), fs)
  else
    -- Create destination file
    match osCreate E fs dst with
    | none => (some (.createDest dst), fs)
    | some fs1 =>
      -- Copy content
      match ioCopy E fs1 src dst with
      | (false, fs2) => (some .copyContent, fs2)
      | (true, fs2) =>
        -- Copy permissions
        match osStat E fs2 src with
        | none => (some .sourceInfo, fs2)
        | some mode =>
          match osChmod E fs2 dst mode with
          | none => (none, fs2) -- just log permission errors but do not fail
          | some fs3 => (none, fs3)

/-! ## Path functions of `path/filepath` -/

/-- The function `filepath.Base`: the last component, `"."` for the empty path. -/
def Base : Path → Name
  | [] => "."
  | [k] => k
  | _ :: k :: ks => Base (k :: ks)

/-- The function `filepath.Dir`: all but the last component; the empty list
stands for `"."`. -/
def Dir : Path → Path
  | [] => []
  | [_] => []
  | k :: k' :: ks => k :: Dir (k' :: ks)

/-- The backward scan of `filepath.Ext` over the characters of a name: the
suffix from the last dot, the empty suffix once a separator is met first, and
`none` while neither has been seen. -/
def extScan : List Char → Option (List Char)
  | [] => none
  | c :: cs =>
    match extScan cs with
    | some e => some e
    | none => if c = '.' then some (c :: cs) else if c = '/' then some [] else none

/-- The function `filepath.Ext`: the suffix beginning at the final dot of the
name, empty if there is no dot. -/
def Ext (fileName : Name) : Name :=
  ⟨(extScan fileName.data).getD []⟩

/-- The slice `fileName[:len(fileName)-len(ext)]`. -/
def baseName (fileName : Name) : Name :=
  ⟨fileName.data.take (fileName.data.length - (Ext fileName).data.length)⟩

/-- The name `fmt.Sprintf("%s_%s%s", baseName, parentDir, ext)`. -/
def newFileName (fileName parentDir : Name) : Name :=
  baseName fileName ++ "_" ++ parentDir ++ Ext fileName

/-! ## `filepath.Walk` -/

/-- One call of the walk function: the path visited and whether it is a
directory. -/
structure Visit where
  path : Path
  isDir : Bool
deriving DecidableEq

mutual
/-- The visits of `filepath.Walk` below and including a node, in order: a
directory before its entries, the entries in listing order. -/
def walkNode : Node → Path → List Visit
  | .file _ _, p => [⟨p, false⟩]
  | .dir es, p => ⟨p, true⟩ :: walkEntries es p
/-- The visits of the entries of a directory at path `p`. -/
def walkEntries : List (Name × Node) → Path → List Visit
  | [], _ => []
  | (k, n) :: rest, p => walkNode n (p ++ [k]) ++ walkEntries rest p
end

/-- The visits of `filepath.Walk(root, fn)`, the root first. The names of a
directory are read when the walk enters it and each entry is examined when its
turn comes; the walk function of pass 1 only creates or overwrites regular
files directly under the root and that of pass 2 changes nothing, so the
sequence is the one the tree at the start of the walk gives (the theorem
`pass1_walk_stable` below shows that no write of pass 1 changes it). Reading a
directory and examining an entry are taken to succeed, so the walk hands the
walk function no error. -/
def Walk (fs : FS) : List Visit :=
  walkNode (.dir fs) []

/-- Run a walk function over the visits until it returns an error. -/
def walkWith {σ : Type} (fn : σ → Visit → Option Err × σ) : σ → List Visit → Option Err × σ
  | st, [] => (none, st)
  | st, v :: vs =>
    match fn st v with
    | (some e, st') => (some e, st')
    | (none, st') => walkWith fn st' vs

/-! ## `flattenDirectory` -/

/-- The state of pass 1: the tree and the map `usedNames`. -/
structure St where
  fs : FS
  usedNames : List Name

/-- Lines 74 to 99: the destination of the file at `path` and the names used
after it, given the tree and the names used so far. -/
def targetOf (E : Env) (st : St) (path : Path) : Path × List Name :=
  -- Get relative path from root
  let relPath := path
  -- Get filename
  let fileName := Base path
  -- Check if this filename exists directly in root
  let targetPath : Path := [fileName]
  if (osStat E st.fs targetPath).isSome || st.usedNames.contains fileName then
    if Dir relPath = [] then
      -- This is a first-level file, keep original name but mark as used
      (targetPath, fileName :: st.usedNames)
    else
      -- Create a unique name by using the directory structure
      let parentDir := Base (Dir relPath)
      let newName := newFileName fileName parentDir
      ([newName], newName :: st.usedNames)
  else
    (targetPath, fileName :: st.usedNames)

/-- The walk function of pass 1 (lines 53 to 108). -/
def pass1Fn (E : Env) (err : Option Err) (st : St) (v : Visit) : Option Err × St :=
  match err with
  | some _ => (some (.accessPath v.path), st)
  | none =>
    -- Skip the root directory itself
    if v.path = [] then (none, st)
    -- Skip directories in this pass
    else if v.isDir then (none, st)
    else
      -- Get relative path from root: the path is below the root, so
      -- filepath.Rel does not fail and the path below the root is the result
      let t := targetOf E st v.path
      -- Copy the file to the new location
      match copyFile E st.fs v.path t.1 with
      | (some e, fs') => (some (.copyFailed v.path t.1 e), ⟨fs', t.2⟩)
      | (none, fs') => (none, ⟨fs', t.2⟩)

/-- Pass 1: the first walk, from the tree as found and no name used. -/
def pass1 (E : Env) (fs : FS) : Option Err × St :=
  walkWith (pass1Fn E none) ⟨fs, []⟩ (Walk fs)

/-- The walk function of pass 2 (lines 117 to 127). -/
def pass2Fn (err : Option Err) (directories : List Path) (v : Visit) :
    Option Err × List Path :=
  match err with
  | some _ => (none, directories) -- continue despite errors
  | none =>
    if v.path ≠ [] && v.isDir then (none, directories ++ [v.path])
    else (none, directories)

/-- The slice `directories` after the second walk. -/
def collectDirectories (fs : FS) : List Path :=
  (walkWith (pass2Fn none) [] (Walk fs)).2

/-- The removal loop (lines 134 to 139): `directories[i]` for `i` from the last
index down to 0; a failed removal is only logged. -/
def removeLoop (E : Env) (fs : FS) (directories : List Path) : FS :=
  directories.reverse.foldl (fun fs d => (osRemoveAll E fs d).2) fs

/-- The function `flattenDirectory(root)` of `main.go`: the returned error, if
any, and the tree it leaves below the root. -/
def flattenDirectory (E : Env) (fs : FS) : Option Err × FS :=
  match pass1 E fs with
  | (some e, st) => (some e, st.fs)
  | (none, st) =>
    -- Second pass: remove directories (from deepest to shallowest)
    match walkWith (pass2Fn none) [] (Walk st.fs) with
    | (some e, _) => (some e, st.fs)
    | (none, directories) => (none, removeLoop E st.fs directories)

/-! ## Observations on a tree -/

/-- The regular files directly under the root, with their bytes. -/
def rootFiles : FS → List (Name × List Nat)
  | [] => []
  | (k, .file c _) :: rest => (k, c) :: rootFiles rest
  | (_, .dir _) :: rest => rootFiles rest

/-- The names of the directories directly under the root. -/
def rootDirs : FS → List Name
  | [] => []
  | (_, .file _ _) :: rest => rootDirs rest
  | (k, .dir _) :: rest => k :: rootDirs rest

/-- Every regular file of one tree other than the one at `dst` is a regular
file of the other, with the same bytes and mode, and conversely. -/
def SameFilesExcept (dst : Path) (fs fs' : FS) : Prop :=
  ∀ q : Path, q ≠ dst → ∀ (c : List Nat) (m : Nat),
    find fs' q = some (.file c m) ↔ find fs q = some (.file c m)

/-- The effect on the root listing of a write to the path `[k]`: nothing, or
the entry `k`, which held no directory, now holds a regular file. -/
def RootWrite (k : Name) (fs fs' : FS) : Prop :=
  fs' = fs ∨ ∃ (c : List Nat) (m : Nat),
    fs' = setEntry fs k (.file c m) ∧ ∀ sub, getEntry fs k ≠ some (.dir sub)

mutual
/-- The directories below and including a node, each before its entries. -/
def dirPathsNode : Node → Path → List Path
  | .file _ _, _ => []
  | .dir es, p => p :: dirPathsEntries es p
/-- The directories below the entries of the directory at path `p`. -/
def dirPathsEntries : List (Name × Node) → Path → List Path
  | [], _ => []
  | (k, n) :: rest, p => dirPathsNode n (p ++ [k]) ++ dirPathsEntries rest p
end

mutual
/-- Whether no directory at or below a node lists a name twice. -/
def wfNode : Node → Bool
  | .file _ _ => true
  | .dir es => wfEntries es
/-- Whether no directory at or below a listing lists a name twice. -/
def wfEntries : List (Name × Node) → Bool
  | [] => true
  | (k, n) :: rest => !(rest.any (fun e => decide (e.1 = k))) && wfNode n && wfEntries rest
end

/-- The names the file at a path can get as destination in pass 1: its own
name and, when it is nested in a subdirectory, the synthesized name. -/
def candidates (path : Path) : List Name :=
  if Dir path = [] then [Base path]
  else [Base path, newFileName (Base path) (Base (Dir path))]

/-! ## Concrete environments and trees -/

/-- The environment in which only `os.Stat` fails. -/
def statFaulty : Env :=
  { noFaults with statFails := fun _ => true }

/-- The environment in which only `os.Stat` of the one path `p` fails. -/
def statFaultyAt (p : Path) : Env :=
  { noFaults with statFails := fun q => decide (q = p) }

/-- A root holding the single file `x.txt` with the two bytes of "hi". -/
def treeSingle : FS :=
  [("x.txt", .file [104, 105] 420)]

/-- A root holding `a/x/f.txt`, `b/x/f.txt` and `c/x/f.txt`. -/
def treeThree : FS :=
  [("a", .dir [("x", .dir [("f.txt", .file [1] 420)])]),
   ("b", .dir [("x", .dir [("f.txt", .file [2] 420)])]),
   ("c", .dir [("x", .dir [("f.txt", .file [3] 420)])])]

/-- A root holding `a/x.txt`, `a/y.txt` and `b/x.txt`. -/
def treeProj : FS :=
  [("a", .dir [("x.txt", .file [1] 420), ("y.txt", .file [2] 420)]),
   ("b", .dir [("x.txt", .file [3] 420)])]

/-- A root holding the file `s` and nothing else. -/
def treeSrc : FS :=
  [("s", .file [1, 2] 420)]

/-- A root holding the files `d` and `s` with different modes. -/
def treeSrcDst : FS :=
  [("d", .file [9] 420), ("s", .file [7] 384)]

/-- A root holding `a/x.txt`, `b/x.txt` and the directory `x_b.txt` with the
file `z` in it. -/
def treeClash : FS :=
  [("a", .dir [("x.txt", .file [1] 420)]),
   ("b", .dir [("x.txt", .file [3] 420)]),
   ("x_b.txt", .dir [("z", .file [5] 420)])]

/-- A root holding `a/x.txt` and, directly under it, the file `x.txt`. -/
def treeFirstLevel : FS :=
  [("a", .dir [("x.txt", .file [1] 420)]),
   ("x.txt", .file [2] 420)]

/-- A root holding the directories `a/b` and `c`, with the file `a/b/f`. -/
def treeDeep : FS :=
  [("a", .dir [("b", .dir [("f", .file [1] 420)])]),
   ("c", .dir [])]

/-- A root holding `a/x.txt`, `a/x_a.txt`, `b/x_a.txt` and the file `x.txt`. -/
def treeNameTaken : FS :=
  [("a", .dir [("x.txt", .file [1] 420), ("x_a.txt", .file [2] 420)]),
   ("b", .dir [("x_a.txt", .file [3] 420)]),
   ("x.txt", .file [4] 420)]

/-! ## Path functions: lemmas -/

theorem extScan_suffix : ∀ (l e : List Char), extScan l = some e → ∃ pre, l = pre ++ e
  | [], e, h => by simp [extScan] at h
  | c :: cs, e, h => by
    unfold extScan at h
    cases hcs : extScan cs with
    | some e' =>
      rw [hcs] at h
      simp only [Option.some.injEq] at h
      obtain ⟨pre, hpre⟩ := extScan_suffix cs e' hcs
      exact ⟨c :: pre, by rw [hpre, ← h]; rfl⟩
    | none =>
      rw [hcs] at h
      by_cases hdot : c = '.'
      · rw [if_pos hdot] at h
        simp only [Option.some.injEq] at h
        exact ⟨[], by rw [← h]; rfl⟩
      · by_cases hsl : c = '/'
        · rw [if_neg hdot, if_pos hsl] at h
          simp only [Option.some.injEq] at h
          exact ⟨c :: cs, by rw [← h]; simp⟩
        · simp [hdot, hsl] at h

theorem extScan_append_some (pre l e : List Char) (h : extScan l = some e) :
    extScan (pre ++ l) = some e := by
  induction pre with
  | nil => simpa using h
  | cons c pre ih => simp [extScan, ih]

theorem extScan_none_of_plain : ∀ (l : List Char), '.' ∉ l → '/' ∉ l → extScan l = none
  | [], _, _ => rfl
  | c :: cs, hd, hs => by
    have h1 : extScan cs = none :=
      extScan_none_of_plain cs (fun h => hd (List.mem_cons_of_mem _ h))
        (fun h => hs (List.mem_cons_of_mem _ h))
    have h2 : c ≠ '.' := fun h => hd (by simp [h])
    have h3 : c ≠ '/' := fun h => hs (by simp [h])
    simp [extScan, h1, h2, h3]

theorem extScan_no_dot : ∀ (l : List Char), '.' ∉ l → (extScan l).getD [] = []
  | [], _ => rfl
  | c :: cs, hd => by
    have ih := extScan_no_dot cs (fun h => hd (List.mem_cons_of_mem _ h))
    have h2 : c ≠ '.' := fun h => hd (by simp [h])
    unfold extScan
    cases hcs : extScan cs with
    | some e => rw [hcs] at ih; simpa using ih
    | none =>
      by_cases hsl : c = '/'
      · simp [h2, hsl]
      · simp [h2, hsl]

theorem baseName_append_Ext (fileName : Name) : baseName fileName ++ Ext fileName = fileName := by
  apply String.ext
  rw [String.data_append]
  show List.take (fileName.data.length - ((extScan fileName.data).getD []).length) fileName.data
      ++ (extScan fileName.data).getD [] = fileName.data
  cases h : extScan fileName.data with
  | none => simp
  | some e =>
    obtain ⟨pre, hpre⟩ := extScan_suffix _ _ h
    simp [hpre]

theorem Base_append_single : ∀ (ds : Path) (n : Name), Base (ds ++ [n]) = n
  | [], _ => rfl
  | [d], _ => rfl
  | d :: d' :: ds, n => by
    have := Base_append_single (d' :: ds) n
    simpa [Base] using this

theorem Dir_append_single : ∀ (ds : Path) (n : Name), Dir (ds ++ [n]) = ds
  | [], _ => rfl
  | [d], _ => rfl
  | d :: d' :: ds, n => by
    have := Dir_append_single (d' :: ds) n
    simpa [Dir] using this

theorem targetOf_collision_nested (E : Env) (st : St) (ds : Path) (parentDirName fileName : Name)
    (hcoll : ((osStat E st.fs [fileName]).isSome || st.usedNames.contains fileName) = true) :
    (targetOf E st (ds ++ [parentDirName, fileName])).1
      = [newFileName fileName parentDirName] := by
  have hB : Base (ds ++ [parentDirName, fileName]) = fileName := by
    have := Base_append_single (ds ++ [parentDirName]) fileName
    simpa using this
  have hD : Dir (ds ++ [parentDirName, fileName]) = ds ++ [parentDirName] := by
    have := Dir_append_single (ds ++ [parentDirName]) fileName
    simpa using this
  unfold targetOf
  simp only [hB, hD, hcoll, if_true, Base_append_single]
  simp

theorem targetOf_first_level (E : Env) (st : St) (k : Name) : (targetOf E st [k]).1 = [k] := by
  unfold targetOf
  simp only [Base, Dir, if_true]
  split <;> rfl

/-! ## Lookup and update: lemmas -/

theorem getEntry_setEntry_same (es : List (Name × Node)) (k : Name) (v : Node) :
    getEntry (setEntry es k v) k = some v := by
  induction es with
  | nil => simp [setEntry, getEntry]
  | cons e rest ih =>
    obtain ⟨k0, n0⟩ := e
    by_cases h : k0 = k
    · simp [setEntry, getEntry, h]
    · simp [setEntry, getEntry, h, ih]

theorem getEntry_setEntry_other (es : List (Name × Node)) (k k2 : Name) (v : Node)
    (hne : k2 ≠ k) : getEntry (setEntry es k v) k2 = getEntry es k2 := by
  induction es with
  | nil =>
    have : ¬ k = k2 := fun h => hne h.symm
    simp [setEntry, getEntry, this]
  | cons e rest ih =>
    obtain ⟨k0, n0⟩ := e
    by_cases h : k0 = k
    · subst h
      have : ¬ k0 = k2 := fun h => hne h.symm
      simp [setEntry, getEntry, this]
    · by_cases h2 : k0 = k2
      · subst h2
        simp [setEntry, getEntry, h]
      · simp [setEntry, getEntry, h, h2, ih]

/-- Storing at an existing path succeeds. -/
theorem store_isSome_of_find : ∀ (p : Path) (es : FS) (v : Node), p ≠ [] →
    (find es p).isSome = true → (store es p v).isSome = true
  | [], _, _, hp, _ => absurd rfl hp
  | [k], es, v, _, _ => by simp [store]
  | k :: k' :: ks, es, v, _, h => by
    unfold find at h
    unfold store
    cases hk : getEntry es k with
    | none => simp [hk] at h
    | some n =>
      cases n with
      | file c m => simp [hk] at h
      | dir sub =>
        simp only [hk] at h ⊢
        have ih := store_isSome_of_find (k' :: ks) sub v (by simp) h
        cases hs : store sub (k' :: ks) v with
        | none => simp [hs] at ih
        | some sub' => simp

/-- After a store the path holds the stored node. -/
theorem find_store_same : ∀ (p : Path) (es es' : FS) (v : Node),
    store es p v = some es' → find es' p = some v
  | [], _, _, _, h => by simp [store] at h
  | [k], es, es', v, h => by
    simp only [store, Option.some.injEq] at h
    subst h
    simp [find, getEntry_setEntry_same]
  | k :: k' :: ks, es, es', v, h => by
    unfold store at h
    cases hk : getEntry es k with
    | none => simp [hk] at h
    | some n =>
      cases n with
      | file c m => simp [hk] at h
      | dir sub =>
        simp only [hk] at h
        cases hs : store sub (k' :: ks) v with
        | none => simp [hs] at h
        | some sub' =>
          simp only [hs, Option.some.injEq] at h
          subst h
          unfold find
          simp only [getEntry_setEntry_same]
          exact find_store_same (k' :: ks) sub sub' v hs

/-- Storing a regular file at a path that held no directory changes no other
regular file and adds none. -/
theorem find_store_other : ∀ (p : Path) (es es' : FS) (c0 : List Nat) (m0 : Nat) (q : Path)
    (c : List Nat) (m : Nat),
    store es p (.file c0 m0) = some es' →
    (∀ sub, find es p ≠ some (.dir sub)) → q ≠ p →
    (find es' q = some (.file c m) ↔ find es q = some (.file c m))
  | [], _, _, _, _, _, _, _, h, _, _ => by simp [store] at h
  | [k], es, es', c0, m0, q, c, m, h, hnd, hq => by
    simp only [store, Option.some.injEq] at h
    subst h
    match q with
    | [] => simp [find]
    | [k2] =>
      have hk : k2 ≠ k := fun h => hq (by rw [h])
      simp [find, getEntry_setEntry_other _ _ _ _ hk]
    | k2 :: k2' :: qs =>
      by_cases hk : k2 = k
      · subst hk
        have h1 : find (setEntry es k2 (.file c0 m0)) (k2 :: k2' :: qs) = none := by
          simp [find, getEntry_setEntry_same]
        have h2 : find es (k2 :: k2' :: qs) = none := by
          unfold find
          cases hg : getEntry es k2 with
          | none => rfl
          | some n =>
            cases n with
            | file _ _ => rfl
            | dir sub => exact absurd (by simp [find, hg]) (hnd sub)
        rw [h1, h2]
      · simp [find, getEntry_setEntry_other _ _ _ _ hk]
  | k :: k' :: ks, es, es', c0, m0, q, c, m, h, hnd, hq => by
    unfold store at h
    cases hk : getEntry es k with
    | none => simp [hk] at h
    | some n =>
      cases n with
      | file _ _ => simp [hk] at h
      | dir sub =>
        simp only [hk] at h
        cases hs : store sub (k' :: ks) (.file c0 m0) with
        | none => simp [hs] at h
        | some sub' =>
          simp only [hs, Option.some.injEq] at h
          subst h
          have hnd' : ∀ s, find sub (k' :: ks) ≠ some (.dir s) := by
            intro s hf
            apply hnd s
            unfold find
            simp only [hk]
            exact hf
          match q with
          | [] => simp [find]
          | [k2] =>
            by_cases hk2 : k2 = k
            · subst hk2
              simp [find, getEntry_setEntry_same, hk]
            · simp [find, getEntry_setEntry_other _ _ _ _ hk2]
          | k2 :: k2' :: qs =>
            by_cases hk2 : k2 = k
            · subst hk2
              have hq' : k2' :: qs ≠ k' :: ks := fun h => hq (by rw [h])
              have ih := find_store_other (k' :: ks) sub sub' c0 m0 (k2' :: qs) c m hs hnd' hq'
              unfold find
              simp only [getEntry_setEntry_same, hk]
              exact ih
            · unfold find
              simp only [getEntry_setEntry_other _ _ _ _ hk2]
/-! ## System calls: lemmas -/

theorem SameFilesExcept.same (dst : Path) (fs : FS) : SameFilesExcept dst fs fs :=
  fun _ _ _ _ => Iff.rfl

theorem SameFilesExcept.andThen {dst : Path} {fs fs1 fs2 : FS}
    (h1 : SameFilesExcept dst fs fs1) (h2 : SameFilesExcept dst fs1 fs2) :
    SameFilesExcept dst fs fs2 :=
  fun q hq c m => (h2 q hq c m).trans (h1 q hq c m)

theorem find_file_ne_nil {fs : FS} {p : Path} {c : List Nat} {m : Nat}
    (h : find fs p = some (.file c m)) : p ≠ [] := by
  intro hp
  subst hp
  simp [find] at h

theorem osCreate_spec {E : Env} {fs fs1 : FS} {dst : Path} (h : osCreate E fs dst = some fs1) :
    (∃ m0, find fs1 dst = some (.file [] m0)) ∧ SameFilesExcept dst fs fs1 := by
  unfold osCreate at h
  by_cases hf : E.createFails dst = true
  · simp [hf] at h
  · simp only [hf, Bool.false_eq_true, if_false] at h
    cases hd : find fs dst with
    | none =>
      simp only [hd] at h
      refine ⟨⟨_, find_store_same _ _ _ _ h⟩, ?_⟩
      intro q hq c m
      exact find_store_other _ _ _ _ _ q c m h (by simp [hd]) hq
    | some n =>
      cases n with
      | dir sub => simp [hd] at h
      | file c0 m0 =>
        simp only [hd] at h
        refine ⟨⟨_, find_store_same _ _ _ _ h⟩, ?_⟩
        intro q hq c m
        exact find_store_other _ _ _ _ _ q c m h (by simp [hd]) hq

theorem writeAll_spec {fs : FS} {dst : Path} {c0 : List Nat} {m0 : Nat} (b : List Nat)
    (h : find fs dst = some (.file c0 m0)) :
    find (writeAll fs dst b) dst = some (.file b m0) ∧ SameFilesExcept dst fs (writeAll fs dst b) := by
  have hs := store_isSome_of_find dst fs (.file b m0) (find_file_ne_nil h) (by simp [h])
  unfold writeAll
  simp only [h]
  cases hst : store fs dst (.file b m0) with
  | none => simp [hst] at hs
  | some fs' =>
    refine ⟨find_store_same _ _ _ _ hst, ?_⟩
    intro q hq c m
    exact find_store_other _ _ _ _ _ q c m hst (by simp [h]) hq

theorem osChmod_spec {E : Env} {fs fs3 : FS} {dst : Path} {mode : Nat}
    (h : osChmod E fs dst mode = some fs3) :
    (∃ c m0, find fs dst = some (.file c m0) ∧ find fs3 dst = some (.file c mode))
    ∧ SameFilesExcept dst fs fs3 := by
  unfold osChmod at h
  by_cases hf : E.chmodFails dst = true
  · simp [hf] at h
  · simp only [hf, Bool.false_eq_true, if_false] at h
    cases hd : find fs dst with
    | none => simp [hd] at h
    | some n =>
      cases n with
      | dir sub => simp [hd] at h
      | file c0 m0 =>
        simp only [hd] at h
        refine ⟨⟨c0, m0, rfl, find_store_same _ _ _ _ h⟩, ?_⟩
        intro q hq c m
        exact find_store_other _ _ _ _ _ q c m h (by simp [hd]) hq

theorem osChmod_isSome {E : Env} {fs : FS} {dst : Path} {c : List Nat} {m0 : Nat} (mode : Nat)
    (hd : find fs dst = some (.file c m0)) (hf : E.chmodFails dst = false) :
    (osChmod E fs dst mode).isSome = true := by
  unfold osChmod
  simp only [hf, Bool.false_eq_true, if_false, hd]
  exact store_isSome_of_find dst fs _ (find_file_ne_nil hd) (by simp [hd])

/-- What a successful stream leaves: the destination holds the bytes the source
held when it was read. -/
theorem ioCopy_spec {E : Env} {fs fs2 : FS} {src dst : Path} {m0 : Nat} {c0 : List Nat}
    (hd : find fs dst = some (.file c0 m0)) (h : ioCopy E fs src dst = (true, fs2)) :
    (∃ c m, find fs src = some (.file c m) ∧ find fs2 dst = some (.file c m0))
    ∧ SameFilesExcept dst fs fs2 := by
  unfold ioCopy readAll at h
  cases hs : find fs src with
  | none => simp [hs] at h
  | some n =>
    cases n with
    | dir sub => simp [hs] at h
    | file c m =>
      simp only [hs] at h
      cases hfail : E.streamFails src dst with
      | some k => simp [hfail] at h
      | none =>
        simp only [hfail, Prod.mk.injEq, true_and] at h
        subst h
        have hw := writeAll_spec c hd
        exact ⟨⟨c, m, rfl, hw.1⟩, hw.2⟩

/-- Whatever happens in `io.Copy`, no regular file other than the destination
changes. -/
theorem ioCopy_frame (E : Env) (fs : FS) (src dst : Path) :
    SameFilesExcept dst fs (ioCopy E fs src dst).2 := by
  have hw : ∀ b, SameFilesExcept dst fs (writeAll fs dst b) := by
    intro b
    cases hd : find fs dst with
    | none => unfold writeAll; simp only [hd]; exact SameFilesExcept.same _ _
    | some n =>
      cases n with
      | dir sub => unfold writeAll; simp only [hd]; exact SameFilesExcept.same _ _
      | file c0 m0 => exact (writeAll_spec b hd).2
  unfold ioCopy
  cases readAll fs src with
  | none => exact SameFilesExcept.same _ _
  | some bytes =>
    cases E.streamFails src dst with
    | some k => exact hw _
    | none => exact hw _

/-- Whatever `copyFile` returns, no regular file other than the destination
changes and none appears. -/
theorem copyFile_frame (E : Env) (fs : FS) (src dst : Path) :
    SameFilesExcept dst fs (copyFile E fs src dst).2 := by
  unfold copyFile
  by_cases ho : osOpen E fs src = true
  · simp only [ho, Bool.not_true, Bool.false_eq_true, if_false]
    cases hc : osCreate E fs dst with
    | none => exact SameFilesExcept.same _ _
    | some fs1 =>
      have h1 := (osCreate_spec hc).2
      have h2 := ioCopy_frame E fs1 src dst
      simp only
      rcases hio : ioCopy E fs1 src dst with ⟨ok, fs2⟩
      rw [hio] at h2
      cases ok with
      | false => exact h1.andThen h2
      | true =>
        simp only
        cases hst : osStat E fs2 src with
        | none => exact h1.andThen h2
        | some mode =>
          simp only
          cases hch : osChmod E fs2 dst mode with
          | none => exact h1.andThen h2
          | some fs3 => exact (h1.andThen h2).andThen (osChmod_spec hch).2
  · simp only [ho, Bool.not_false, if_true]
    exact SameFilesExcept.same _ _
/-! ## `copyFile` -/

theorem osCreate_keeps_mode {E : Env} {fs fs1 : FS} {dst : Path} {c0 : List Nat} {m0 : Nat}
    (hd : find fs dst = some (.file c0 m0)) (h : osCreate E fs dst = some fs1) :
    find fs1 dst = some (.file [] m0) := by
  unfold osCreate at h
  by_cases hf : E.createFails dst = true
  · simp [hf] at h
  · simp only [hf, Bool.false_eq_true, if_false, hd] at h
    exact find_store_same _ _ _ _ h

/-- The run of `copyFile` once open, create and stream have succeeded. -/
theorem copyFile_after_stream {E : Env} {fs fs1 fs2 : FS} {src dst : Path}
    (hopen : osOpen E fs src = true) (hcreate : osCreate E fs dst = some fs1)
    (hio : ioCopy E fs1 src dst = (true, fs2)) :
    copyFile E fs src dst =
      match osStat E fs2 src with
      | none => (some .sourceInfo, fs2)
      | some mode =>
        match osChmod E fs2 dst mode with
        | none => (none, fs2)
        | some fs3 => (none, fs3) := by
  unfold copyFile
  simp only [hopen, Bool.not_true, Bool.false_eq_true, if_false, hcreate, hio]

/-- C3, amended: for distinct paths `src` and `dst` with `src` a regular file,
once opening, creating and streaming have succeeded the destination holds the
bytes the source held before the call, the source is unchanged, and no regular
file other than the destination has changed or appeared; `copyFile` returns no
error exactly when, in addition, `os.Stat(src)` succeeds. -/
theorem C3_copyFile_distinct (E : Env) (fs fs1 : FS) (src dst : Path) (c : List Nat) (m : Nat)
    (hne : src ≠ dst)
    (hsrc : find fs src = some (.file c m))
    (hopen : osOpen E fs src = true)
    (hcreate : osCreate E fs dst = some fs1)
    (hstream : (ioCopy E fs1 src dst).1 = true) :
    ((copyFile E fs src dst).1 = none ↔ (osStat E (ioCopy E fs1 src dst).2 src).isSome = true)
    ∧ (∃ m', find (copyFile E fs src dst).2 dst = some (.file c m'))
    ∧ find (copyFile E fs src dst).2 src = some (.file c m)
    ∧ (∀ q : Path, q ≠ dst → ∀ (c' : List Nat) (m' : Nat),
        find (copyFile E fs src dst).2 q = some (.file c' m') ↔ find fs q = some (.file c' m')) := by
  have hframe := copyFile_frame E fs src dst
  obtain ⟨⟨m0, hd1⟩, hf1⟩ := osCreate_spec hcreate
  rcases hio : ioCopy E fs1 src dst with ⟨ok, fs2⟩
  rw [hio] at hstream
  simp only at hstream
  subst hstream
  obtain ⟨⟨c1, m1, hs1, hd2⟩, hf2⟩ := ioCopy_spec hd1 hio
  have hs1' : find fs1 src = some (.file c m) := (hf1 src hne c m).2 hsrc
  rw [hs1'] at hs1
  simp only [Option.some.injEq, Node.file.injEq] at hs1
  obtain ⟨hc, _⟩ := hs1
  subst hc
  have hrun := copyFile_after_stream hopen hcreate hio
  refine ⟨?_, ?_, (hframe src hne c m).2 hsrc, hframe⟩
  · rw [hrun]
    cases hst : osStat E fs2 src with
    | none => simp
    | some mode =>
      simp only
      cases hch : osChmod E fs2 dst mode with
      | none => simp
      | some fs3 => simp
  · rw [hrun]
    cases hst : osStat E fs2 src with
    | none => exact ⟨m0, hd2⟩
    | some mode =>
      simp only
      cases hch : osChmod E fs2 dst mode with
      | none => exact ⟨m0, hd2⟩
      | some fs3 =>
        obtain ⟨⟨c3, m3, h3a, h3b⟩, _⟩ := osChmod_spec hch
        rw [hd2] at h3a
        simp only [Option.some.injEq, Node.file.injEq] at h3a
        obtain ⟨hc3, _⟩ := h3a
        subst hc3
        exact ⟨mode, h3b⟩

/-- C3, amended, at a concrete copy: `s` to the new file `d` with no fault. -/
theorem C3_copyFile_distinct_witness :
    (["s"] : Path) ≠ ["d"]
    ∧ ((copyFile noFaults treeSrc ["s"] ["d"]).1 = none ↔
        (osStat noFaults (ioCopy noFaults (setEntry treeSrc "d" (.file [] 420)) ["s"] ["d"]).2
          ["s"]).isSome = true)
    ∧ (∃ m', find (copyFile noFaults treeSrc ["s"] ["d"]).2 ["d"] = some (.file [1, 2] m')) :=
  have h := C3_copyFile_distinct noFaults treeSrc (setEntry treeSrc "d" (.file [] 420))
    ["s"] ["d"] [1, 2] 420 (by decide) rfl rfl rfl rfl
  ⟨by decide, h.1, h.2.1⟩

/-- C3 as stated fails: with `s` a regular file and opening, creating and
streaming all succeeding, `copyFile` still returns the error of line 36 when
`os.Stat(src)` fails, although the bytes have been copied. -/
theorem C3_counterexample :
    (["s"] : Path) ≠ ["d"]
    ∧ readAll treeSrc ["s"] = some [1, 2]
    ∧ osOpen statFaulty treeSrc ["s"] = true
    ∧ (osCreate statFaulty treeSrc ["d"]).isSome = true
    ∧ (osCreate statFaulty treeSrc ["d"]).map (fun fs1 => (ioCopy statFaulty fs1 ["s"] ["d"]).1)
        = some true
    ∧ (copyFile statFaulty treeSrc ["s"] ["d"]).1 = some .sourceInfo
    ∧ readAll (copyFile statFaulty treeSrc ["s"] ["d"]).2 ["d"] = some [1, 2] := by
  decide

/-- C9, amended: `copyFile` returns an error exactly when opening the source,
creating the destination, streaming the bytes or `os.Stat` of the source fails;
whether `os.Chmod` fails never changes the returned error; and when the copy
succeeds with `os.Chmod` not failing, the destination has the mode of the
source. -/
theorem C9_copyFile_errors (E : Env) (fs : FS) (src dst : Path) :
    ((copyFile E fs src dst).1 ≠ none ↔
      (osOpen E fs src = false
        ∨ osCreate E fs dst = none
        ∨ (∃ fs1, osCreate E fs dst = some fs1 ∧ (ioCopy E fs1 src dst).1 = false)
        ∨ (∃ fs1, osCreate E fs dst = some fs1 ∧ (ioCopy E fs1 src dst).1 = true
            ∧ osStat E (ioCopy E fs1 src dst).2 src = none)))
    ∧ (∀ f : Path → Bool,
        (copyFile { E with chmodFails := f } fs src dst).1 = (copyFile E fs src dst).1)
    ∧ ((copyFile E fs src dst).1 = none → E.chmodFails dst = false →
        ∃ c c' mode, find fs src = some (.file c' mode)
          ∧ find (copyFile E fs src dst).2 dst = some (.file c mode)) := by
  refine ⟨?_, ?_, ?_⟩
  · unfold copyFile
    by_cases ho : osOpen E fs src = true
    · simp only [ho, Bool.not_true, Bool.false_eq_true, if_false, false_or]
      cases hc : osCreate E fs dst with
      | none => simp
      | some fs1 =>
        simp only [Option.some.injEq, exists_eq_left', false_or]
        rcases hio : ioCopy E fs1 src dst with ⟨ok, fs2⟩
        cases ok with
        | false => simp
        | true =>
          simp only
          cases hst : osStat E fs2 src with
          | none => simp
          | some mode =>
            simp only
            cases hch : osChmod E fs2 dst mode with
            | none => simp
            | some fs3 => simp
    · have ho' : osOpen E fs src = false := by simpa using ho
      simp [ho']
  · intro f
    unfold copyFile
    have e1 : osOpen { E with chmodFails := f } fs src = osOpen E fs src := rfl
    have e2 : osCreate { E with chmodFails := f } fs dst = osCreate E fs dst := rfl
    have e3 : ∀ fs1, ioCopy { E with chmodFails := f } fs1 src dst = ioCopy E fs1 src dst :=
      fun _ => rfl
    have e4 : ∀ fs2, osStat { E with chmodFails := f } fs2 src = osStat E fs2 src := fun _ => rfl
    rw [e1, e2]
    by_cases ho : osOpen E fs src = true
    · simp only [ho, Bool.not_true, Bool.false_eq_true, if_false]
      cases hc : osCreate E fs dst with
      | none => rfl
      | some fs1 =>
        simp only [e3]
        rcases hio : ioCopy E fs1 src dst with ⟨ok, fs2⟩
        cases ok with
        | false => rfl
        | true =>
          simp only [e4]
          cases hst : osStat E fs2 src with
          | none => rfl
          | some mode =>
            simp only
            cases osChmod { E with chmodFails := f } fs2 dst mode <;>
              cases osChmod E fs2 dst mode <;> rfl
    · simp only [ho, Bool.not_false, if_true]
  · intro hok hch
    by_cases ho : osOpen E fs src = true
    · cases hc : osCreate E fs dst with
      | none => simp [copyFile, ho, hc] at hok
      | some fs1 =>
        rcases hio : ioCopy E fs1 src dst with ⟨ok, fs2⟩
        cases ok with
        | false => simp [copyFile, ho, hc, hio] at hok
        | true =>
          have hrun := copyFile_after_stream ho hc hio
          obtain ⟨⟨m0, hd1⟩, hf1⟩ := osCreate_spec hc
          obtain ⟨⟨c1, m1, hs1, hd2⟩, hf2⟩ := ioCopy_spec hd1 hio
          cases hst : osStat E fs2 src with
          | none => rw [hrun, hst] at hok; simp at hok
          | some mode =>
            have hsome := osChmod_isSome mode hd2 hch
            cases hchm : osChmod E fs2 dst mode with
            | none => simp [hchm] at hsome
            | some fs3 =>
              obtain ⟨⟨c3, m3, _, h3b⟩, _⟩ := osChmod_spec hchm
              rw [hrun, hst]
              simp only [hchm]
              refine ⟨c3, ?_⟩
              by_cases hsd : src = dst
              · subst hsd
                -- the source is the destination: create kept its mode
                have horig : ∃ c0 m00, find fs src = some (.file c0 m00) := by
                  cases hfs : find fs src with
                  | none => simp [osOpen, hfs] at ho
                  | some n =>
                    cases n with
                    | dir sub => simp [osCreate, hfs] at hc
                    | file c0 m00 => exact ⟨c0, m00, rfl⟩
                obtain ⟨c0, m00, hfs⟩ := horig
                have hk := osCreate_keeps_mode hfs hc
                rw [hd1] at hk
                simp only [Option.some.injEq, Node.file.injEq, true_and] at hk
                subst hk
                have : mode = m0 := by
                  simp [osStat, hd2] at hst
                  exact hst.2.symm
                subst this
                exact ⟨c0, mode, hfs, h3b⟩
              · have hsrc2 : find fs2 src = some (.file c1 m1) := (hf2 src hsd c1 m1).2 hs1
                have hsrc0 : find fs src = some (.file c1 m1) := (hf1 src hsd c1 m1).1 hs1
                have : mode = m1 := by
                  simp [osStat, hsrc2] at hst
                  exact hst.2.symm
                subst this
                exact ⟨c1, mode, hsrc0, h3b⟩
    · simp [copyFile, ho] at hok

/-- C9 as stated fails: opening, creating and streaming succeed, the bytes
reach the destination, and `copyFile` returns the error of line 36 because
reading the mode bits of the source fails. -/
theorem C9_counterexample :
    osOpen statFaulty treeSrcDst ["s"] = true
    ∧ (osCreate statFaulty treeSrcDst ["d"]).isSome = true
    ∧ (osCreate statFaulty treeSrcDst ["d"]).map (fun fs1 => (ioCopy statFaulty fs1 ["s"] ["d"]).1)
        = some true
    ∧ readAll (copyFile statFaulty treeSrcDst ["s"] ["d"]).2 ["d"] = some [7]
    ∧ (copyFile statFaulty treeSrcDst ["s"] ["d"]).1 = some .sourceInfo := by
  decide

/-- C9, amended, at a concrete copy: `s` over the existing file `d` with no
fault; the copy succeeds and `d` ends with the mode of `s`. -/
theorem C9_copyFile_errors_witness :
    (copyFile noFaults treeSrcDst ["s"] ["d"]).1 = none
    ∧ noFaults.chmodFails ["d"] = false
    ∧ ∃ c c' mode, find treeSrcDst ["s"] = some (.file c' mode)
        ∧ find (copyFile noFaults treeSrcDst ["s"] ["d"]).2 ["d"] = some (.file c mode) :=
  ⟨by decide, rfl, (C9_copyFile_errors noFaults treeSrcDst ["s"] ["d"]).2.2 (by decide) rfl⟩

/-- A copy of a path directly under the root onto itself that returns no error
leaves an empty file there, whatever it held: `os.Create` truncates the file
before `io.Copy` reads it. -/
theorem copyFile_self_truncates (E : Env) (fs : FS) (k : Name)
    (hok : (copyFile E fs [k] [k]).1 = none) :
    ∃ m', getEntry (copyFile E fs [k] [k]).2 k = some (.file [] m') := by
  by_cases ho : osOpen E fs [k] = true
  · cases hc : osCreate E fs [k] with
    | none => simp [copyFile, ho, hc] at hok
    | some fs1 =>
      rcases hio : ioCopy E fs1 [k] [k] with ⟨ok, fs2⟩
      cases ok with
      | false => simp [copyFile, ho, hc, hio] at hok
      | true =>
        have hrun := copyFile_after_stream ho hc hio
        obtain ⟨⟨m0, hd1⟩, _⟩ := osCreate_spec hc
        obtain ⟨⟨c1, m1, hs1, hd2⟩, _⟩ := ioCopy_spec hd1 hio
        rw [hd1] at hs1
        simp only [Option.some.injEq, Node.file.injEq] at hs1
        obtain ⟨hcc, _⟩ := hs1
        subst hcc
        rw [hrun]
        cases hst : osStat E fs2 [k] with
        | none => exact ⟨m0, by simpa [find] using hd2⟩
        | some mode =>
          simp only
          cases hch : osChmod E fs2 [k] mode with
          | none => exact ⟨m0, by simpa [find] using hd2⟩
          | some fs3 =>
            obtain ⟨⟨c3, m3, h3a, h3b⟩, _⟩ := osChmod_spec hch
            rw [hd2] at h3a
            simp only [Option.some.injEq, Node.file.injEq] at h3a
            obtain ⟨hc3, _⟩ := h3a
            subst hc3
            exact ⟨mode, by simpa [find] using h3b⟩
  · simp [copyFile, ho] at hok

/-! ## `flattenDirectory` at concrete trees -/

/-- C1, the code at the failing input: the root holds only `x.txt` with two
bytes. Pass 1 picks `x.txt` itself as destination and calls `copyFile` with
source and destination the same path; `os.Create` truncates the file before
`io.Copy` reads it, so `flattenDirectory` returns no error and leaves `x.txt`
empty. -/
theorem C1_first_level_file_truncated :
    rootFiles treeSingle = [("x.txt", [104, 105])]
    ∧ (targetOf noFaults ⟨treeSingle, []⟩ ["x.txt"]).1 = ["x.txt"]
    ∧ (copyFile noFaults treeSingle ["x.txt"] ["x.txt"]).1 = none
    ∧ rootFiles (copyFile noFaults treeSingle ["x.txt"] ["x.txt"]).2 = [("x.txt", [])]
    ∧ (flattenDirectory noFaults treeSingle).1 = none
    ∧ rootFiles (flattenDirectory noFaults treeSingle).2 = [("x.txt", [])] := by
  decide

/-- C2, the code at the failing input: the root holds `a/x/f.txt`, `b/x/f.txt`
and `c/x/f.txt`. The second and the third file both get the destination
`f_x.txt`, the third overwrites the second, and the root ends with two files
for the three it held: the bytes of `b/x/f.txt` are lost. -/
theorem C2_synthesized_names_clash :
    ((Walk treeThree).filter (fun v => !v.isDir)).map Visit.path
      = [["a", "x", "f.txt"], ["b", "x", "f.txt"], ["c", "x", "f.txt"]]
    ∧ (flattenDirectory noFaults treeThree).1 = none
    ∧ rootFiles (flattenDirectory noFaults treeThree).2 = [("f.txt", [1]), ("f_x.txt", [3])]
    ∧ rootDirs (flattenDirectory noFaults treeThree).2 = []
    ∧ (rootFiles (flattenDirectory noFaults treeThree).2).length = 2
    ∧ (targetOf noFaults (walkWith (pass1Fn noFaults none) ⟨treeThree, []⟩
        ((Walk treeThree).take 6)).2 ["b", "x", "f.txt"]).1 = ["f_x.txt"]
    ∧ (targetOf noFaults (walkWith (pass1Fn noFaults none) ⟨treeThree, []⟩
        ((Walk treeThree).take 9)).2 ["c", "x", "f.txt"]).1 = ["f_x.txt"] := by
  decide

/-! ## Writes directly under the root -/

theorem setEntry_setEntry (es : List (Name × Node)) (k : Name) (v w : Node) :
    setEntry (setEntry es k v) k w = setEntry es k w := by
  induction es with
  | nil => simp [setEntry]
  | cons e rest ih =>
    obtain ⟨k0, n0⟩ := e
    by_cases h : k0 = k
    · simp [setEntry, h]
    · simp [setEntry, h, ih]

theorem RootWrite.idle (k : Name) (fs : FS) : RootWrite k fs fs := Or.inl rfl

theorem RootWrite.twice {k : Name} {fs fs1 fs2 : FS}
    (h1 : RootWrite k fs fs1) (h2 : RootWrite k fs1 fs2) : RootWrite k fs fs2 := by
  rcases h1 with h1 | ⟨c, m, h1, hnd⟩
  · subst h1; exact h2
  · rcases h2 with h2 | ⟨c', m', h2, _⟩
    · subst h2; exact Or.inr ⟨c, m, h1, hnd⟩
    · subst h1
      rw [setEntry_setEntry] at h2
      exact Or.inr ⟨c', m', h2, hnd⟩

theorem osCreate_root {E : Env} {fs fs1 : FS} {k : Name} (h : osCreate E fs [k] = some fs1) :
    RootWrite k fs fs1 := by
  unfold osCreate at h
  by_cases hf : E.createFails [k] = true
  · simp [hf] at h
  · simp only [hf, Bool.false_eq_true, if_false, find] at h
    cases hd : getEntry fs k with
    | none =>
      simp only [hd, store, Option.some.injEq] at h
      exact Or.inr ⟨_, _, h.symm, by simp [hd]⟩
    | some n =>
      cases n with
      | dir sub => simp [hd] at h
      | file c0 m0 =>
        simp only [hd, store, Option.some.injEq] at h
        exact Or.inr ⟨_, _, h.symm, by simp [hd]⟩

theorem writeAll_root (fs : FS) (k : Name) (b : List Nat) : RootWrite k fs (writeAll fs [k] b) := by
  unfold writeAll
  simp only [find]
  cases hd : getEntry fs k with
  | none => exact Or.inl rfl
  | some n =>
    cases n with
    | dir sub => exact Or.inl rfl
    | file c0 m0 =>
      simp only [store, Option.getD_some]
      exact Or.inr ⟨_, _, rfl, by simp [hd]⟩

theorem ioCopy_root (E : Env) (fs : FS) (src : Path) (k : Name) :
    RootWrite k fs (ioCopy E fs src [k]).2 := by
  unfold ioCopy
  cases readAll fs src with
  | none => exact Or.inl rfl
  | some bytes =>
    cases E.streamFails src [k] with
    | some j => exact writeAll_root _ _ _
    | none => exact writeAll_root _ _ _

theorem osChmod_root {E : Env} {fs fs3 : FS} {k : Name} {mode : Nat}
    (h : osChmod E fs [k] mode = some fs3) : RootWrite k fs fs3 := by
  unfold osChmod at h
  by_cases hf : E.chmodFails [k] = true
  · simp [hf] at h
  · simp only [hf, Bool.false_eq_true, if_false, find] at h
    cases hd : getEntry fs k with
    | none => simp [hd] at h
    | some n =>
      cases n with
      | dir sub => simp [hd] at h
      | file c0 m0 =>
        simp only [hd, store, Option.some.injEq] at h
        exact Or.inr ⟨_, _, h.symm, by simp [hd]⟩

/-- A copy to a path directly under the root only writes that entry. -/
theorem copyFile_root (E : Env) (fs : FS) (src : Path) (k : Name) :
    RootWrite k fs (copyFile E fs src [k]).2 := by
  unfold copyFile
  by_cases ho : osOpen E fs src = true
  · simp only [ho, Bool.not_true, Bool.false_eq_true, if_false]
    cases hc : osCreate E fs [k] with
    | none => exact Or.inl rfl
    | some fs1 =>
      have h1 := osCreate_root hc
      have h2 := ioCopy_root E fs1 src k
      simp only
      rcases hio : ioCopy E fs1 src [k] with ⟨ok, fs2⟩
      rw [hio] at h2
      cases ok with
      | false => exact h1.twice h2
      | true =>
        simp only
        cases hst : osStat E fs2 src with
        | none => exact h1.twice h2
        | some mode =>
          simp only
          cases hch : osChmod E fs2 [k] mode with
          | none => exact h1.twice h2
          | some fs3 => exact (h1.twice h2).twice (osChmod_root hch)
  · simp only [ho, Bool.not_false, if_true]
    exact Or.inl rfl

/-- A write directly under the root leaves every other path as it was. -/
theorem RootWrite.find_other {k : Name} {fs fs' : FS} (h : RootWrite k fs fs') :
    ∀ q : Path, q ≠ [] → q ≠ [k] → find fs' q = find fs q := by
  rcases h with h | ⟨c, m, h, hnd⟩
  · subst h; intros; rfl
  · subst h
    intro q hq1 hq2
    match q with
    | [] => exact absurd rfl hq1
    | [k2] =>
      have hk : k2 ≠ k := fun h => hq2 (by rw [h])
      simp [find, getEntry_setEntry_other _ _ _ _ hk]
    | k2 :: k2' :: qs =>
      by_cases hk : k2 = k
      · subst hk
        unfold find
        have hlhs : getEntry (setEntry fs k2 (.file c m)) k2 = some (.file c m) :=
          getEntry_setEntry_same _ _ _
        rw [hlhs]
        cases hg : getEntry fs k2 with
        | none => rfl
        | some n =>
          cases n with
          | file _ _ => rfl
          | dir sub => exact absurd hg (hnd sub)
      · unfold find
        simp only [getEntry_setEntry_other _ _ _ _ hk]

/-- A write directly under the root keeps every directory there, as it was. -/
theorem RootWrite.getEntry_dir {k : Name} {fs fs' : FS} (h : RootWrite k fs fs')
    (k2 : Name) (sub : List (Name × Node)) (hd : getEntry fs k2 = some (.dir sub)) :
    getEntry fs' k2 = some (.dir sub) := by
  by_cases hk : k2 = k
  · subst hk
    rcases h with h | ⟨c, m, _, hnd⟩
    · subst h; exact hd
    · exact absurd hd (hnd sub)
  · have := h.find_other [k2] (by simp) (by simpa using hk)
    simpa [find, hd] using this

/-- A write directly under the root keeps every regular file there a regular
file. -/
theorem RootWrite.getEntry_file {k : Name} {fs fs' : FS} (h : RootWrite k fs fs')
    (k2 : Name) (hf : ∃ c m, getEntry fs k2 = some (.file c m)) :
    ∃ c m, getEntry fs' k2 = some (.file c m) := by
  by_cases hk : k2 = k
  · subst hk
    rcases h with h | ⟨c, m, h, _⟩
    · subst h; exact hf
    · subst h; exact ⟨c, m, getEntry_setEntry_same _ _ _⟩
  · have := h.find_other [k2] (by simp) (by simpa using hk)
    obtain ⟨c, m, hf⟩ := hf
    exact ⟨c, m, by simpa [find, hf] using this⟩

/-! ## Pass 1 -/

theorem walkWith_append {σ : Type} (fn : σ → Visit → Option Err × σ) :
    ∀ (pre rest : List Visit) (st : σ),
      walkWith fn st (pre ++ rest) =
        match walkWith fn st pre with
        | (some e, st') => (some e, st')
        | (none, st') => walkWith fn st' rest
  | [], rest, st => by simp [walkWith]
  | v :: pre, rest, st => by
    simp only [List.cons_append, walkWith]
    rcases hfn : fn st v with ⟨r, st'⟩
    cases r with
    | some e => rfl
    | none => exact walkWith_append fn pre rest st'

theorem targetOf_single (E : Env) (st : St) (p : Path) : ∃ k, (targetOf E st p).1 = [k] := by
  unfold targetOf
  simp only
  split
  · split
    · exact ⟨_, rfl⟩
    · exact ⟨_, rfl⟩
  · exact ⟨_, rfl⟩

/-- One call of the walk function of pass 1 writes at most one entry directly
under the root. -/
theorem pass1Fn_root (E : Env) (st : St) (v : Visit) :
    ∃ k, RootWrite k st.fs (pass1Fn E none st v).2.fs := by
  unfold pass1Fn
  simp only
  by_cases h1 : v.path = []
  · simp only [h1, if_true]
    exact ⟨"", Or.inl rfl⟩
  · simp only [h1, if_false]
    by_cases h2 : v.isDir = true
    · simp only [h2, if_true]
      exact ⟨"", Or.inl rfl⟩
    · simp only [h2, Bool.false_eq_true, if_false]
      obtain ⟨k, hk⟩ := targetOf_single E st v.path
      refine ⟨k, ?_⟩
      have hroot := copyFile_root E st.fs v.path k
      rw [hk]
      rcases hcf : copyFile E st.fs v.path [k] with ⟨r, fs'⟩
      rw [hcf] at hroot
      cases r with
      | some e => exact hroot
      | none => exact hroot

/-- A property of the tree that every write directly under the root keeps
holds in every state pass 1 goes through. -/
theorem pass1_invariant (E : Env) (P : FS → Prop)
    (hP : ∀ k fs fs', RootWrite k fs fs' → P fs → P fs') :
    ∀ (vs : List Visit) (st : St), P st.fs → P (walkWith (pass1Fn E none) st vs).2.fs
  | [], st, h => by simpa [walkWith] using h
  | v :: vs, st, h => by
    obtain ⟨k, hk⟩ := pass1Fn_root E st v
    have h' := hP k _ _ hk h
    unfold walkWith
    rcases hfn : pass1Fn E none st v with ⟨r, st'⟩
    rw [hfn] at h'
    cases r with
    | some e => exact h'
    | none => exact pass1_invariant E P hP vs st' h'

theorem newFileName_ne (fileName parentDir : Name) : newFileName fileName parentDir ≠ fileName := by
  intro h
  have h1 : (baseName fileName).data.length + ("_" : String).data.length
      + parentDir.data.length + (Ext fileName).data.length = fileName.data.length := by
    have := congrArg (fun s : String => s.data.length) h
    simpa only [newFileName, String.data_append, List.length_append] using this
  have h2 : (baseName fileName).data.length + (Ext fileName).data.length
      = fileName.data.length := by
    have := congrArg (fun s : String => s.data.length) (baseName_append_Ext fileName)
    simpa only [String.data_append, List.length_append] using this
  have h3 : ("_" : String).data.length = 1 := rfl
  rw [h3] at h1
  omega

/-- C8: when the copy of some entry fails in pass 1, `flattenDirectory` returns
the wrapped error and the tree it leaves is the one the failing `copyFile`
left: pass 2 has not run, every directory below the root is where it was with
the entries it had, and every file nested in a subdirectory is where it was
with its bytes and mode. -/
theorem C8_copy_failure_aborts (E : Env) (fs : FS) (pre post : List Visit) (v : Visit) (e : Err)
    (hwalk : Walk fs = pre ++ v :: post)
    (hpre : (walkWith (pass1Fn E none) ⟨fs, []⟩ pre).1 = none)
    (hfile : v.path ≠ [] ∧ v.isDir = false)
    (hfail : (copyFile E (walkWith (pass1Fn E none) ⟨fs, []⟩ pre).2.fs v.path
        (targetOf E (walkWith (pass1Fn E none) ⟨fs, []⟩ pre).2 v.path).1).1 = some e) :
    (flattenDirectory E fs).1
        = some (.copyFailed v.path (targetOf E (walkWith (pass1Fn E none) ⟨fs, []⟩ pre).2 v.path).1 e)
    ∧ (flattenDirectory E fs).2
        = (copyFile E (walkWith (pass1Fn E none) ⟨fs, []⟩ pre).2.fs v.path
            (targetOf E (walkWith (pass1Fn E none) ⟨fs, []⟩ pre).2 v.path).1).2
    ∧ (∀ (q : Path) (sub : List (Name × Node)), q ≠ [] → find fs q = some (.dir sub) →
        find (flattenDirectory E fs).2 q = some (.dir sub))
    ∧ (∀ (q : Path) (c : List Nat) (m : Nat), 2 ≤ q.length → find fs q = some (.file c m) →
        find (flattenDirectory E fs).2 q = some (.file c m)) := by
  rcases hst : walkWith (pass1Fn E none) ⟨fs, []⟩ pre with ⟨r, st⟩
  rw [hst] at hpre hfail
  simp only at hpre hfail
  subst hpre
  simp only
  rcases hcf : copyFile E st.fs v.path (targetOf E st v.path).1 with ⟨r2, fs2⟩
  rw [hcf] at hfail
  simp only at hfail
  subst hfail
  have hstep : pass1Fn E none st v
      = (some (.copyFailed v.path (targetOf E st v.path).1 e), ⟨fs2, (targetOf E st v.path).2⟩) := by
    unfold pass1Fn
    simp only [hfile.1, hfile.2, if_false, Bool.false_eq_true, hcf]
  have hp1 : pass1 E fs
      = (some (.copyFailed v.path (targetOf E st v.path).1 e), ⟨fs2, (targetOf E st v.path).2⟩) := by
    unfold pass1
    rw [hwalk, walkWith_append, hst]
    simp only [walkWith, hstep]
  have hflat : flattenDirectory E fs
      = (some (.copyFailed v.path (targetOf E st v.path).1 e), fs2) := by
    unfold flattenDirectory
    rw [hp1]
  -- the tree after the failing copy, as a state of pass 1
  have hkeep : ∀ q : Path, (q ≠ [] ∧ ∃ sub, find fs q = some (.dir sub)) ∨ 2 ≤ q.length →
      find fs2 q = find fs q := by
    intro q hq
    have hinv := pass1_invariant E (fun t => find t q = find fs q) (by
      intro k t t' hw ht
      have hq1 : q ≠ [] := by
        rcases hq with ⟨h, _⟩ | h
        · exact h
        · intro h0; subst h0; simp at h
      by_cases hqk : q = [k]
      · subst hqk
        rcases hq with ⟨_, sub, hsub⟩ | h
        · rw [hsub] at ht ⊢
          exact hw.getEntry_dir k sub ht
        · simp at h
      · rw [hw.find_other q hq1 hqk]; exact ht) (pre ++ [v]) ⟨fs, []⟩ rfl
    rw [walkWith_append, hst] at hinv
    simp only [walkWith, hstep] at hinv
    exact hinv
  rw [hflat]
  refine ⟨rfl, rfl, ?_, ?_⟩
  · intro q sub hq hd
    rw [hkeep q (Or.inl ⟨hq, sub, hd⟩)]; exact hd
  · intro q c m hq hf
    rw [hkeep q (Or.inr hq)]; exact hf

/-- C8, at a concrete failure: the root holds `a/x.txt`, `b/x.txt` and the
directory `x_b.txt`; creating the destination `x_b.txt` for `b/x.txt` fails. -/
theorem C8_copy_failure_aborts_witness :
    (flattenDirectory noFaults treeClash).1
        = some (.copyFailed ["b", "x.txt"] ["x_b.txt"] (.createDest ["x_b.txt"]))
    ∧ find (flattenDirectory noFaults treeClash).2 ["x_b.txt"]
        = some (.dir [("z", .file [5] 420)])
    ∧ find (flattenDirectory noFaults treeClash).2 ["a", "x.txt"] = some (.file [1] 420) :=
  have h := C8_copy_failure_aborts noFaults treeClash
    [⟨[], true⟩, ⟨["a"], true⟩, ⟨["a", "x.txt"], false⟩, ⟨["b"], true⟩]
    [⟨["x_b.txt"], true⟩, ⟨["x_b.txt", "z"], false⟩]
    ⟨["b", "x.txt"], false⟩ (.createDest ["x_b.txt"])
    (by decide) (by decide) (by decide) (by decide)
  ⟨h.1, h.2.2.1 ["x_b.txt"] _ (by decide) rfl, h.2.2.2 ["a", "x.txt"] [1] 420 (by decide) rfl⟩

/-- Where `os.Stat` does not fail on the first-level file: in the state pass 1
is in after any sequence `pre` of visits, so at every point of the walk in
whatever order it lists the entries, a file directly under the root gets its
own name as destination, and a file nested in a subdirectory whose base name is
the name of a regular file directly under the root gets the synthesized name,
which differs from that name, whether the first-level file has been visited
already or not. -/
theorem first_level_preference_of_stat (E : Env) (fs : FS) (pre : List Visit) :
    (∀ k : Name,
        (targetOf E (walkWith (pass1Fn E none) ⟨fs, []⟩ pre).2 [k]).1 = [k])
    ∧ (∀ (ds : Path) (d n : Name) (c : List Nat) (m : Nat),
        getEntry fs n = some (.file c m) → E.statFails [n] = false →
        (targetOf E (walkWith (pass1Fn E none) ⟨fs, []⟩ pre).2 (ds ++ [d, n])).1
          = [newFileName n d]
        ∧ newFileName n d ≠ n) := by
  refine ⟨?_, ?_⟩
  · intro k
    exact targetOf_first_level E _ k
  · intro ds d n c m hfile hstat
    have hinv := pass1_invariant E (fun t => ∃ c m, getEntry t n = some (.file c m))
      (fun k t t' hw ht => hw.getEntry_file n ht) pre ⟨fs, []⟩ ⟨c, m, hfile⟩
    obtain ⟨c', m', hc'⟩ := hinv
    refine ⟨?_, newFileName_ne n d⟩
    apply targetOf_collision_nested
    simp [osStat, hstat, find, hc']

/-- With no fault, at a concrete tree: the root holds `a/x.txt` and the file
`x.txt`; the walk visits `a/x.txt` first and its destination is `x_a.txt`. -/
theorem first_level_preference_of_stat_example :
    (targetOf noFaults (walkWith (pass1Fn noFaults none) ⟨treeFirstLevel, []⟩
        [⟨[], true⟩, ⟨["a"], true⟩]).2 ["a", "x.txt"]).1 = [newFileName "x.txt" "a"]
    ∧ newFileName "x.txt" "a" ≠ "x.txt"
    ∧ newFileName "x.txt" "a" = "x_a.txt" :=
  have h := (first_level_preference_of_stat noFaults treeFirstLevel
    [⟨[], true⟩, ⟨["a"], true⟩]).2 [] "a" "x.txt" [2] 420 rfl rfl
  ⟨h.1, h.2, by decide⟩

/-- C6, the code at the failing input: the root holds `a/x.txt` and the
regular file `x.txt`, and `os.Stat` of `x.txt` fails although the file is
there. Line 81 takes the failed call for "no such file": when the walk comes to
`a/x.txt`, before it comes to `x.txt`, no collision is seen, the destination is
`x.txt` and not the synthesized `x_a.txt`, and the copy puts the bytes of
`a/x.txt` over those of the first-level file. -/
theorem C6_stat_failure_overwrites :
    (Walk treeFirstLevel).map Visit.path = [[], ["a"], ["a", "x.txt"], ["x.txt"]]
    ∧ readAll treeFirstLevel ["x.txt"] = some [2]
    ∧ readAll treeFirstLevel ["a", "x.txt"] = some [1]
    ∧ (walkWith (pass1Fn (statFaultyAt ["x.txt"]) none) ⟨treeFirstLevel, []⟩
        [⟨[], true⟩, ⟨["a"], true⟩]).1 = none
    ∧ (targetOf (statFaultyAt ["x.txt"])
        (walkWith (pass1Fn (statFaultyAt ["x.txt"]) none) ⟨treeFirstLevel, []⟩
          [⟨[], true⟩, ⟨["a"], true⟩]).2 ["a", "x.txt"]).1 = ["x.txt"]
    ∧ newFileName "x.txt" "a" = "x_a.txt"
    ∧ (walkWith (pass1Fn (statFaultyAt ["x.txt"]) none) ⟨treeFirstLevel, []⟩
        [⟨[], true⟩, ⟨["a"], true⟩, ⟨["a", "x.txt"], false⟩]).1 = none
    ∧ rootFiles (walkWith (pass1Fn (statFaultyAt ["x.txt"]) none) ⟨treeFirstLevel, []⟩
        [⟨[], true⟩, ⟨["a"], true⟩, ⟨["a", "x.txt"], false⟩]).2.fs = [("x.txt", [1])] := by
  decide

/-! ## Pass 2 -/

theorem walkWith_pass2 : ∀ (vs : List Visit) (acc : List Path),
    walkWith (pass2Fn none) acc vs
      = (none, acc ++ (vs.filter (fun v => decide (v.path ≠ []) && v.isDir)).map Visit.path)
  | [], acc => by simp [walkWith]
  | v :: vs, acc => by
    unfold walkWith
    by_cases h : (decide (v.path ≠ []) && v.isDir) = true
    · have hstep : pass2Fn none acc v = (none, acc ++ [v.path]) := by
        unfold pass2Fn
        simp only [h, if_true]
      rw [hstep]
      simp only
      rw [walkWith_pass2 vs (acc ++ [v.path])]
      have h' : ¬v.path = [] ∧ v.isDir = true := by simpa using h
      simp [List.filter_cons, h']
    · have hstep : pass2Fn none acc v = (none, acc) := by
        unfold pass2Fn
        simp only [h, Bool.false_eq_true, if_false]
      rw [hstep]
      simp only
      rw [walkWith_pass2 vs acc]
      have h' : ¬(¬v.path = [] ∧ v.isDir = true) := by simpa using h
      simp [List.filter_cons, h']

mutual
theorem walkNode_dirs : ∀ (n : Node) (p : Path), p ≠ [] →
    ((walkNode n p).filter (fun v => decide (v.path ≠ []) && v.isDir)).map Visit.path
      = dirPathsNode n p
  | .file _ _, p, _ => by simp [walkNode, dirPathsNode]
  | .dir es, p, hp => by
    simp only [walkNode, dirPathsNode, List.filter_cons]
    simp only [hp, ne_eq, not_false_eq_true, decide_True, Bool.and_self, if_true, List.map_cons]
    rw [walkEntries_dirs es p]
theorem walkEntries_dirs : ∀ (es : List (Name × Node)) (p : Path),
    ((walkEntries es p).filter (fun v => decide (v.path ≠ []) && v.isDir)).map Visit.path
      = dirPathsEntries es p
  | [], p => by simp [walkEntries, dirPathsEntries]
  | (k, n) :: rest, p => by
    simp only [walkEntries, dirPathsEntries, List.filter_append, List.map_append]
    rw [walkNode_dirs n (p ++ [k]) (by simp), walkEntries_dirs rest p]
end

/-- The slice `directories` holds the directories below the root in pre-order. -/
theorem collectDirectories_eq (fs : FS) : collectDirectories fs = dirPathsEntries fs [] := by
  unfold collectDirectories Walk
  rw [walkWith_pass2]
  simp only [walkNode, List.filter_cons, List.nil_append]
  simp only [ne_eq, not_true_eq_false, decide_False, Bool.false_and, Bool.false_eq_true, if_false]
  exact walkEntries_dirs fs []

mutual
theorem dirPathsNode_below : ∀ (n : Node) (p d : Path), d ∈ dirPathsNode n p → ∃ t, d = p ++ t
  | .file _ _, p, d, h => by simp [dirPathsNode] at h
  | .dir es, p, d, h => by
    simp only [dirPathsNode, List.mem_cons] at h
    rcases h with h | h
    · exact ⟨[], by simp [h]⟩
    · obtain ⟨j, t, _, ht⟩ := dirPathsEntries_below es p d h
      exact ⟨j :: t, ht⟩
theorem dirPathsEntries_below : ∀ (es : List (Name × Node)) (p d : Path),
    d ∈ dirPathsEntries es p → ∃ j t, (∃ sub, (j, Node.dir sub) ∈ es) ∧ d = p ++ j :: t
  | [], p, d, h => by simp [dirPathsEntries] at h
  | (k, n) :: rest, p, d, h => by
    simp only [dirPathsEntries, List.mem_append] at h
    rcases h with h | h
    · obtain ⟨t, ht⟩ := dirPathsNode_below n (p ++ [k]) d h
      cases n with
      | file _ _ => simp [dirPathsNode] at h
      | dir sub => exact ⟨k, t, ⟨sub, by simp⟩, by simp [ht]⟩
    · obtain ⟨j, t, ⟨sub, hsub⟩, ht⟩ := dirPathsEntries_below rest p d h
      exact ⟨j, t, ⟨sub, List.mem_cons_of_mem _ hsub⟩, ht⟩
end

/-- Every directory directly under the root is in the slice. -/
theorem mem_dirPathsEntries_of_dir : ∀ (es : List (Name × Node)) (p : Path) (k : Name)
    (sub : List (Name × Node)), (k, Node.dir sub) ∈ es → p ++ [k] ∈ dirPathsEntries es p
  | [], _, _, _, h => by simp at h
  | (k0, n) :: rest, p, k, sub, h => by
    simp only [List.mem_cons] at h
    simp only [dirPathsEntries, List.mem_append]
    rcases h with h | h
    · simp only [Prod.mk.injEq] at h
      obtain ⟨hk, hn⟩ := h
      subst hk; subst hn
      left
      simp [dirPathsNode]
    · right
      exact mem_dirPathsEntries_of_dir rest p k sub h

mutual
theorem dirPathsNode_order : ∀ (n : Node) (p d a : Path), d ∈ dirPathsNode n p →
    (∃ t, a = p ++ t) → (∃ k ks, d = a ++ k :: ks) →
    ∃ l1 l2 l3, dirPathsNode n p = l1 ++ a :: l2 ++ d :: l3
  | .file _ _, p, d, a, h, _, _ => by simp [dirPathsNode] at h
  | .dir es, p, d, a, h, ⟨t, ht⟩, ⟨k, ks, hd⟩ => by
    simp only [dirPathsNode, List.mem_cons] at h
    have hne : d ≠ p := by
      intro hdp
      have := congrArg List.length hd
      rw [hdp, ht] at this
      simp at this
    have hmem : d ∈ dirPathsEntries es p := by
      rcases h with h | h
      · exact absurd h hne
      · exact h
    match t, ht with
    | [], ht =>
      have hap : a = p := by simpa using ht
      obtain ⟨s, r, hsr⟩ := List.append_of_mem hmem
      exact ⟨[], s, r, by simp [dirPathsNode, hap, hsr]⟩
    | j :: t', ht =>
      obtain ⟨l1, l2, l3, hsplit⟩ :=
        dirPathsEntries_order es p d a hmem ⟨j, t', ht⟩ ⟨k, ks, hd⟩
      exact ⟨p :: l1, l2, l3, by simp [dirPathsNode, hsplit]⟩
theorem dirPathsEntries_order : ∀ (es : List (Name × Node)) (p d a : Path),
    d ∈ dirPathsEntries es p → (∃ j t, a = p ++ j :: t) → (∃ k ks, d = a ++ k :: ks) →
    ∃ l1 l2 l3, dirPathsEntries es p = l1 ++ a :: l2 ++ d :: l3
  | [], p, d, a, h, _, _ => by simp [dirPathsEntries] at h
  | (k0, n) :: rest, p, d, a, h, ⟨j, t, ha⟩, ⟨k, ks, hd⟩ => by
    simp only [dirPathsEntries, List.mem_append] at h
    rcases h with h | h
    · obtain ⟨t1, ht1⟩ := dirPathsNode_below n (p ++ [k0]) d h
      have hj : j = k0 := by
        have e1 := ht1
        rw [hd, ha] at e1
        simp at e1
        exact e1.1
      subst hj
      obtain ⟨l1, l2, l3, hsplit⟩ :=
        dirPathsNode_order n (p ++ [j]) d a h ⟨t, by simp [ha]⟩ ⟨k, ks, hd⟩
      exact ⟨l1, l2, l3 ++ dirPathsEntries rest p, by simp [dirPathsEntries, hsplit]⟩
    · obtain ⟨l1, l2, l3, hsplit⟩ :=
        dirPathsEntries_order rest p d a h ⟨j, t, ha⟩ ⟨k, ks, hd⟩
      exact ⟨dirPathsNode n (p ++ [k0]) ++ l1, l2, l3, by simp [dirPathsEntries, hsplit]⟩
end

/-! ## The walk and the writes of pass 1 -/

theorem walkEntries_setEntry_file (k : Name) (c : List Nat) (m : Nat) :
    ∀ (es : List (Name × Node)) (p : Path), (∀ sub, getEntry es k ≠ some (.dir sub)) →
    walkEntries (setEntry es k (.file c m)) p = walkEntries es p
    ∨ walkEntries (setEntry es k (.file c m)) p = walkEntries es p ++ [⟨p ++ [k], false⟩]
  | [], p, _ => by
    right
    simp [setEntry, walkEntries, walkNode]
  | (k0, n0) :: rest, p, h => by
    by_cases hk : k0 = k
    · left
      cases n0 with
      | dir sub => exact absurd (by simp [getEntry, hk]) (h sub)
      | file c0 m0 => simp [setEntry, hk, walkEntries, walkNode]
    · have hrest : ∀ sub, getEntry rest k ≠ some (.dir sub) := by
        intro sub hg
        exact h sub (by simp [getEntry, hk, hg])
      rcases walkEntries_setEntry_file k c m rest p hrest with ih | ih
      · left
        simp [setEntry, hk, walkEntries, ih]
      · right
        simp [setEntry, hk, walkEntries, ih]

/-- A write directly under the root leaves the visits of a walk as they were,
but for the visit of a new regular file at the end. -/
theorem RootWrite.walk_stable {k : Name} {fs fs' : FS} (h : RootWrite k fs fs') :
    Walk fs' = Walk fs ∨ Walk fs' = Walk fs ++ [⟨[k], false⟩] := by
  rcases h with h | ⟨c, m, h, hnd⟩
  · subst h; exact Or.inl rfl
  · subst h
    unfold Walk
    simp only [walkNode]
    rcases walkEntries_setEntry_file k c m fs [] hnd with h' | h'
    · left; rw [h']
    · right; rw [h']; simp

/-- A write directly under the root leaves the directories a walk collects as
they were. -/
theorem RootWrite.same_directories {k : Name} {fs fs' : FS} (h : RootWrite k fs fs') :
    collectDirectories fs' = collectDirectories fs := by
  unfold collectDirectories
  rw [walkWith_pass2, walkWith_pass2]
  rcases h.walk_stable with h' | h'
  · rw [h']
  · rw [h']
    simp [List.filter_append]

/-- In every state of pass 1 the walk of the tree is the walk of the tree as
found, followed by visits of regular files directly under the root: the walk
function never changes what the walk is still to visit. -/
theorem pass1_walk_stable (E : Env) (fs : FS) (vs : List Visit) :
    ∃ news : List Visit, (∀ v ∈ news, v.isDir = false ∧ ∃ k, v.path = [k])
      ∧ Walk (walkWith (pass1Fn E none) ⟨fs, []⟩ vs).2.fs = Walk fs ++ news := by
  apply pass1_invariant E
    (fun t => ∃ news : List Visit, (∀ v ∈ news, v.isDir = false ∧ ∃ k, v.path = [k])
      ∧ Walk t = Walk fs ++ news)
  · intro k t t' hw ⟨news, hnews, ht⟩
    rcases hw.walk_stable with h' | h'
    · exact ⟨news, hnews, by rw [h', ht]⟩
    · refine ⟨news ++ [⟨[k], false⟩], ?_, by rw [h', ht]; simp⟩
      intro v hv
      simp only [List.mem_append, List.mem_singleton] at hv
      rcases hv with hv | hv
      · exact hnews v hv
      · subst hv; exact ⟨rfl, k, rfl⟩
  · exact ⟨[], by simp, by simp⟩

/-- Pass 2 collects the directories the tree had before pass 1. -/
theorem collectDirectories_pass1 (E : Env) (fs : FS) :
    collectDirectories (pass1 E fs).2.fs = collectDirectories fs := by
  unfold pass1
  exact pass1_invariant E (fun t => collectDirectories t = collectDirectories fs)
    (fun k t t' hw ht => hw.same_directories.trans ht) (Walk fs) ⟨fs, []⟩ rfl

theorem ne_append_cons (p : Path) (j : Name) (t : List Name) : p ≠ p ++ j :: t := by
  intro h
  have := congrArg List.length h
  simp at this

mutual
theorem dirPathsNode_nodup : ∀ (n : Node) (p : Path), wfNode n = true →
    (dirPathsNode n p).Nodup
  | .file _ _, _, _ => by simp [dirPathsNode]
  | .dir es, p, h => by
    simp only [wfNode] at h
    simp only [dirPathsNode, List.nodup_cons]
    refine ⟨?_, dirPathsEntries_nodup es p h⟩
    intro hmem
    obtain ⟨j, t, _, ht⟩ := dirPathsEntries_below es p p hmem
    exact ne_append_cons p j t ht
theorem dirPathsEntries_nodup : ∀ (es : List (Name × Node)) (p : Path), wfEntries es = true →
    (dirPathsEntries es p).Nodup
  | [], _, _ => by simp [dirPathsEntries]
  | (k, n) :: rest, p, h => by
    simp only [wfEntries, Bool.and_eq_true, Bool.not_eq_true', List.any_eq_false,
      decide_eq_true_eq] at h
    obtain ⟨⟨hk, hn⟩, hrest⟩ := h
    simp only [dirPathsEntries]
    rw [List.nodup_append]
    refine ⟨dirPathsNode_nodup n (p ++ [k]) hn, dirPathsEntries_nodup rest p hrest, ?_⟩
    intro d hd1 hd2
    obtain ⟨t1, ht1⟩ := dirPathsNode_below n (p ++ [k]) d hd1
    obtain ⟨j, t, ⟨sub, hsub⟩, ht⟩ := dirPathsEntries_below rest p d hd2
    rw [ht1] at ht
    simp at ht
    exact hk (j, Node.dir sub) hsub ht.1.symm
end

theorem getEntry_mem : ∀ (es : List (Name × Node)) (k : Name) (n : Node),
    getEntry es k = some n → (k, n) ∈ es
  | [], _, _, h => by simp [getEntry] at h
  | (k0, n0) :: rest, k, n, h => by
    unfold getEntry at h
    by_cases hk : k0 = k
    · simp only [hk, if_true, Option.some.injEq] at h
      simp [hk, h]
    · simp only [hk, if_false] at h
      exact List.mem_cons_of_mem _ (getEntry_mem rest k n h)

theorem getEntry_eq_none {es : List (Name × Node)} {k : Name} (h : ∀ e ∈ es, e.1 ≠ k) :
    getEntry es k = none := by
  induction es with
  | nil => rfl
  | cons e rest ih =>
    obtain ⟨k0, n0⟩ := e
    have h0 : k0 ≠ k := h (k0, n0) (by simp)
    simp only [getEntry, h0, if_false]
    exact ih (fun e he => h e (List.mem_cons_of_mem _ he))

theorem dirPathsNode_sub_entries : ∀ (es : List (Name × Node)) (p : Path) (k : Name) (n : Node),
    (k, n) ∈ es → ∀ d, d ∈ dirPathsNode n (p ++ [k]) → d ∈ dirPathsEntries es p
  | [], _, _, _, h, _, _ => by simp at h
  | (k0, n0) :: rest, p, k, n, h, d, hd => by
    simp only [List.mem_cons, Prod.mk.injEq] at h
    simp only [dirPathsEntries, List.mem_append]
    rcases h with ⟨hk, hn⟩ | h
    · subst hk; subst hn
      exact Or.inl hd
    · exact Or.inr (dirPathsNode_sub_entries rest p k n h d hd)

/-- Every directory below the root is in the slice. -/
theorem mem_dirPathsEntries_of_find : ∀ (q : Path) (es : List (Name × Node)) (p : Path)
    (sub : List (Name × Node)), q ≠ [] → find es q = some (.dir sub) →
    p ++ q ∈ dirPathsEntries es p
  | [], _, _, _, hq, _ => absurd rfl hq
  | [k], es, p, sub, _, h => by
    simp only [find] at h
    exact mem_dirPathsEntries_of_dir es p k sub (getEntry_mem es k _ h)
  | k :: k' :: ks, es, p, sub, _, h => by
    unfold find at h
    cases hk : getEntry es k with
    | none => simp [hk] at h
    | some n =>
      cases n with
      | file _ _ => simp [hk] at h
      | dir s1 =>
        simp only [hk] at h
        have ih := mem_dirPathsEntries_of_find (k' :: ks) s1 (p ++ [k]) sub (by simp) h
        apply dirPathsNode_sub_entries es p k (.dir s1) (getEntry_mem es k _ hk)
        simp only [dirPathsNode, List.mem_cons]
        right
        simpa using ih

/-- C10: the slice `directories` holds every directory below the root, in
pre-order, and never the root; in the order of removal, which is the reverse
of the slice, every directory comes before each of its ancestors below the
root; and where no directory lists a name twice, no path comes twice. -/
theorem C10_removal_order (fs : FS) :
    collectDirectories fs = dirPathsEntries fs []
    ∧ (∀ (q : Path) (sub : List (Name × Node)), q ≠ [] → find fs q = some (.dir sub) →
        q ∈ collectDirectories fs)
    ∧ ([] : Path) ∉ collectDirectories fs
    ∧ (∀ E : Env, removeLoop E fs (collectDirectories fs)
        = (collectDirectories fs).reverse.foldl (fun t d => (osRemoveAll E t d).2) fs)
    ∧ (∀ d a : Path, d ∈ collectDirectories fs → a ≠ [] → (∃ k ks, d = a ++ k :: ks) →
        ∃ l1 l2 l3, (collectDirectories fs).reverse = l1 ++ d :: l2 ++ a :: l3)
    ∧ (wfEntries fs = true → (collectDirectories fs).reverse.Nodup) := by
  rw [collectDirectories_eq]
  refine ⟨rfl, ?_, ?_, fun _ => rfl, ?_, ?_⟩
  · intro q sub hq hf
    have := mem_dirPathsEntries_of_find q fs [] sub hq hf
    simpa using this
  · intro h
    obtain ⟨j, t, _, ht⟩ := dirPathsEntries_below fs [] [] h
    simp at ht
  · intro d a hd ha hpre
    have ha' : ∃ j t, a = [] ++ j :: t := by
      cases a with
      | nil => exact absurd rfl ha
      | cons j t => exact ⟨j, t, rfl⟩
    obtain ⟨l1, l2, l3, hsplit⟩ := dirPathsEntries_order fs [] d a hd ha' hpre
    refine ⟨l3.reverse, l2.reverse, l1.reverse, ?_⟩
    rw [hsplit]
    simp
  · intro hwf
    rw [List.nodup_reverse]
    exact dirPathsEntries_nodup fs [] hwf

/-- C10, at a concrete tree: below a root holding `a/b` and `c`, the removal
order puts `a/b` before `a`. -/
theorem C10_removal_order_witness :
    ∃ l1 l2 l3, (collectDirectories treeDeep).reverse = l1 ++ ["a", "b"] :: l2 ++ ["a"] :: l3 :=
  (C10_removal_order treeDeep).2.2.2.2.1 ["a", "b"] ["a"] (by decide) (by decide)
    ⟨"b", [], rfl⟩

/-! ## The removal loop -/

theorem remove_mem : ∀ (path : Path) (es : FS) (e' : Name × Node), e' ∈ remove es path →
    ∃ e ∈ es, e.1 = e'.1 ∧ e.2.isDir = e'.2.isDir
  | [], es, e', h => ⟨e', by simpa [remove] using h, rfl, rfl⟩
  | [k], es, e', h => by
    simp only [remove, List.mem_filter] at h
    exact ⟨e', h.1, rfl, rfl⟩
  | k :: k' :: ks, es, e', h => by
    simp only [remove, List.mem_map] at h
    obtain ⟨e, he, hfe⟩ := h
    refine ⟨e, he, ?_⟩
    obtain ⟨k0, n0⟩ := e
    by_cases hk : k0 = k
    · cases n0 with
      | file c m => simp only [hk, if_true] at hfe; subst hfe; exact ⟨hk, rfl⟩
      | dir sub => simp only [hk, if_true] at hfe; subst hfe; exact ⟨hk, rfl⟩
    · simp only [hk, if_false] at hfe; subst hfe; exact ⟨rfl, rfl⟩

theorem remove_single_gone (es : FS) (k : Name) : ∀ e' ∈ remove es [k], e'.1 ≠ k := by
  intro e' h
  simp only [remove, List.mem_filter, decide_eq_true_eq] at h
  exact h.2

theorem osRemoveAll_mem (E : Env) (fs : FS) (path : Path) (e' : Name × Node)
    (h : e' ∈ (osRemoveAll E fs path).2) : ∃ e ∈ fs, e.1 = e'.1 ∧ e.2.isDir = e'.2.isDir := by
  unfold osRemoveAll at h
  by_cases hf : E.removeFails path = true
  · simp only [hf, if_true] at h
    exact ⟨e', h, rfl, rfl⟩
  · simp only [hf, Bool.false_eq_true, if_false] at h
    exact remove_mem path fs e' h

/-- Every entry left by a run of removals comes from an entry of the same name
and kind. -/
theorem removals_mem (E : Env) : ∀ (L : List Path) (fs : FS) (e' : Name × Node),
    e' ∈ L.foldl (fun t d => (osRemoveAll E t d).2) fs →
    ∃ e ∈ fs, e.1 = e'.1 ∧ e.2.isDir = e'.2.isDir
  | [], fs, e', h => ⟨e', by simpa using h, rfl, rfl⟩
  | d :: L, fs, e', h => by
    simp only [List.foldl_cons] at h
    obtain ⟨e1, he1, hk1, hd1⟩ := removals_mem E L _ e' h
    obtain ⟨e, he, hk, hd⟩ := osRemoveAll_mem E fs d e1 he1
    exact ⟨e, he, hk.trans hk1, hd.trans hd1⟩

/-- A name whose removal is in the run and does not fail is gone at the end. -/
theorem removals_gone (E : Env) (k : Name) (hrm : E.removeFails [k] = false) :
    ∀ (L : List Path) (fs : FS), [k] ∈ L →
    ∀ e' ∈ L.foldl (fun t d => (osRemoveAll E t d).2) fs, e'.1 ≠ k
  | [], _, h, _, _ => by simp at h
  | d :: L, fs, h, e', he' => by
    simp only [List.foldl_cons] at he'
    by_cases hL : [k] ∈ L
    · exact removals_gone E k hrm L _ hL e' he'
    · have hd : d = [k] := by
        simp only [List.mem_cons] at h
        rcases h with h | h
        · exact h.symm
        · exact absurd h hL
      subst hd
      obtain ⟨e1, he1, hk1, _⟩ := removals_mem E L _ e' he'
      have h1 : (osRemoveAll E fs [k]).2 = remove fs [k] := by
        simp [osRemoveAll, hrm]
      rw [h1] at he1
      rw [← hk1]
      exact remove_single_gone fs k e1 he1

theorem flattenDirectory_ok {E : Env} {fs : FS} (hok : (flattenDirectory E fs).1 = none) :
    (pass1 E fs).1 = none
    ∧ (flattenDirectory E fs).2
        = removeLoop E (pass1 E fs).2.fs (collectDirectories (pass1 E fs).2.fs) := by
  unfold flattenDirectory at hok ⊢
  rcases hp : pass1 E fs with ⟨r, st⟩
  rw [hp] at hok
  cases r with
  | some e => simp at hok
  | none =>
    simp only
    unfold collectDirectories
    rw [walkWith_pass2]
    exact ⟨trivial, rfl⟩

/-- After pass 2 with no failing removal, no directory is left directly under
the root. -/
theorem removeLoop_no_dir (E : Env) (fs : FS)
    (hrm : ∀ d ∈ collectDirectories fs, E.removeFails d = false) :
    ∀ e ∈ removeLoop E fs (collectDirectories fs), e.2.isFile = true := by
  intro e' he'
  unfold removeLoop at he'
  cases hn : e'.2 with
  | file c m => rfl
  | dir sub' =>
    exfalso
    obtain ⟨e, he, hk, hd⟩ := removals_mem E _ fs e' he'
    obtain ⟨k, n⟩ := e
    cases n with
    | file c m => simp [hn, Node.isDir] at hd
    | dir sub =>
      have hmem : [k] ∈ collectDirectories fs := by
        rw [collectDirectories_eq]
        have := mem_dirPathsEntries_of_dir fs [] k sub he
        simpa using this
      have hgone := removals_gone E k (hrm _ hmem) (collectDirectories fs).reverse fs
        (by simpa using hmem) e' he'
      exact hgone hk.symm

/-- C4: after `flattenDirectory` has returned no error, with every removal of
pass 2 succeeding (pass 2 removes the directories the tree had at the start),
every entry directly under the root is a regular file and no path below the
root is a directory. -/
theorem C4_no_directory_remains (E : Env) (fs : FS)
    (hok : (flattenDirectory E fs).1 = none)
    (hrm : ∀ d ∈ collectDirectories fs, E.removeFails d = false) :
    (∀ e ∈ (flattenDirectory E fs).2, e.2.isFile = true)
    ∧ rootDirs (flattenDirectory E fs).2 = []
    ∧ (∀ (q : Path) (sub : List (Name × Node)), q ≠ [] →
        find (flattenDirectory E fs).2 q ≠ some (.dir sub)) := by
  obtain ⟨_, hres⟩ := flattenDirectory_ok hok
  have hall : ∀ e ∈ (flattenDirectory E fs).2, e.2.isFile = true := by
    rw [hres]
    exact removeLoop_no_dir E _ (by rw [collectDirectories_pass1]; exact hrm)
  have hget : ∀ k sub, getEntry (flattenDirectory E fs).2 k ≠ some (.dir sub) := by
    intro k sub hg
    have := hall _ (getEntry_mem _ _ _ hg)
    simp [Node.isFile] at this
  refine ⟨hall, ?_, ?_⟩
  · generalize (flattenDirectory E fs).2 = t at hall
    induction t with
    | nil => rfl
    | cons e rest ih =>
      obtain ⟨k, n⟩ := e
      cases n with
      | file c m =>
        simp only [rootDirs]
        exact ih (fun e he => hall e (List.mem_cons_of_mem _ he))
      | dir sub =>
        have := hall (k, .dir sub) (by simp)
        simp [Node.isFile] at this
  · intro q sub hq hf
    match q with
    | [] => exact hq rfl
    | [k] => exact hget k sub (by simpa [find] using hf)
    | k :: k' :: ks =>
      unfold find at hf
      cases hg : getEntry (flattenDirectory E fs).2 k with
      | none => simp [hg] at hf
      | some n =>
        cases n with
        | file _ _ => simp [hg] at hf
        | dir s1 => exact hget k s1 hg

/-- C4, at a concrete tree: the root holding `a/x.txt`, `a/y.txt` and
`b/x.txt` ends with regular files only. -/
theorem C4_no_directory_remains_witness :
    (flattenDirectory noFaults treeProj).1 = none
    ∧ rootDirs (flattenDirectory noFaults treeProj).2 = [] :=
  ⟨by decide, (C4_no_directory_remains noFaults treeProj (by decide) (fun _ _ => rfl)).2.1⟩

/-! ## The synthesized name -/

/-- C7: the name pass 1 synthesizes for a colliding nested entry is
`base ++ "_" ++ parentDirName ++ ext` with `base ++ ext = fileName`; `ext` is
empty when `fileName` has no dot and is the suffix from the last dot otherwise;
the destination of a colliding entry at `ds ++ [parentDirName, fileName]` is
that name directly under the root, whatever the leading components `ds` are.
The three examples evaluate as stated. -/
theorem C7_synthesized_name (E : Env) (st : St) (ds : Path) (parentDirName fileName : Name)
    (hcoll : ((osStat E st.fs [fileName]).isSome || st.usedNames.contains fileName) = true) :
    (targetOf E st (ds ++ [parentDirName, fileName])).1 = [newFileName fileName parentDirName]
    ∧ newFileName fileName parentDirName
        = baseName fileName ++ "_" ++ parentDirName ++ Ext fileName
    ∧ baseName fileName ++ Ext fileName = fileName
    ∧ ('.' ∉ fileName.data → Ext fileName = "")
    ∧ (∀ pre suf : List Char, fileName.data = pre ++ '.' :: suf → '.' ∉ suf → '/' ∉ suf →
        Ext fileName = ⟨'.' :: suf⟩ ∧ baseName fileName = ⟨pre⟩)
    ∧ newFileName "archive.tar.gz" "d" = "archive.tar_d.gz"
    ∧ newFileName "README" "d" = "README_d"
    ∧ newFileName ".bashrc" "d" = "_d.bashrc" := by
  refine ⟨targetOf_collision_nested E st ds parentDirName fileName hcoll, rfl,
    baseName_append_Ext fileName, ?_, ?_, by decide, by decide, by decide⟩
  · intro h
    apply String.ext
    exact extScan_no_dot _ h
  · intro pre suf hsplit hdot hsl
    have hscan : extScan fileName.data = some ('.' :: suf) := by
      rw [hsplit]
      apply extScan_append_some
      simp [extScan, extScan_none_of_plain suf hdot hsl]
    have hext : Ext fileName = ⟨'.' :: suf⟩ := by
      apply String.ext
      show (extScan fileName.data).getD [] = '.' :: suf
      rw [hscan]; rfl
    refine ⟨hext, ?_⟩
    apply String.ext
    show List.take (fileName.data.length - (Ext fileName).data.length) fileName.data = pre
    rw [hext, hsplit]
    simp

/-- C7, at a concrete entry: `a/d/archive.tar.gz` colliding with a file of that
name directly under the root. -/
theorem C7_synthesized_name_witness :
    (targetOf noFaults ⟨[("archive.tar.gz", .file [] 420)], []⟩
        (["a"] ++ ["d", "archive.tar.gz"])).1 = [newFileName "archive.tar.gz" "d"]
    ∧ newFileName "archive.tar.gz" "d"
        = baseName "archive.tar.gz" ++ "_" ++ "d" ++ Ext "archive.tar.gz" :=
  have h := C7_synthesized_name noFaults ⟨[("archive.tar.gz", .file [] 420)], []⟩
    ["a"] "d" "archive.tar.gz" (by decide)
  ⟨h.1, h.2.1⟩

/-! ## Two files of one name -/

theorem targetOf_spec (E : Env) (st : St) (path : Path) :
    ∃ k, k ∈ candidates path ∧ targetOf E st path = ([k], k :: st.usedNames) := by
  unfold targetOf candidates
  simp only
  by_cases hc : ((osStat E st.fs [Base path]).isSome || st.usedNames.contains (Base path)) = true
  · by_cases hd : Dir path = []
    · simp only [hc, hd, if_true]
      exact ⟨Base path, by simp, rfl⟩
    · simp only [hc, hd, if_true, if_false]
      exact ⟨newFileName (Base path) (Base (Dir path)), by simp, rfl⟩
  · simp only [hc, Bool.false_eq_true, if_false]
    refine ⟨Base path, ?_, rfl⟩
    by_cases hd : Dir path = []
    · simp [hd]
    · simp [hd]

theorem pass1Fn_file (E : Env) (st : St) (v : Visit) (h1 : v.path ≠ []) (h2 : v.isDir = false) :
    (pass1Fn E none st v).2
        = ⟨(copyFile E st.fs v.path (targetOf E st v.path).1).2, (targetOf E st v.path).2⟩
    ∧ ((pass1Fn E none st v).1 = none →
        (copyFile E st.fs v.path (targetOf E st v.path).1).1 = none) := by
  unfold pass1Fn
  simp only [h1, h2, if_false, Bool.false_eq_true]
  rcases hcf : copyFile E st.fs v.path (targetOf E st v.path).1 with ⟨r, fs'⟩
  cases r with
  | some e => simp
  | none => simp

theorem pass1Fn_skip (E : Env) (st : St) (v : Visit) (h : v.path = [] ∨ v.isDir = true) :
    pass1Fn E none st v = (none, st) := by
  unfold pass1Fn
  by_cases h1 : v.path = []
  · simp only [h1, if_true]
  · rcases h with h | h
    · exact absurd h h1
    · simp only [h1, h, if_false, if_true]

/-- A successful copy between distinct paths leaves the bytes of the source at
the destination. -/
theorem copyFile_ok_content {E : Env} {fs : FS} {src dst : Path} {c : List Nat} {m : Nat}
    (hok : (copyFile E fs src dst).1 = none) (hne : src ≠ dst)
    (hsrc : find fs src = some (.file c m)) :
    ∃ m', find (copyFile E fs src dst).2 dst = some (.file c m') := by
  by_cases ho : osOpen E fs src = true
  · cases hc : osCreate E fs dst with
    | none => simp [copyFile, ho, hc] at hok
    | some fs1 =>
      rcases hio : ioCopy E fs1 src dst with ⟨ok, fs2⟩
      cases ok with
      | false => simp [copyFile, ho, hc, hio] at hok
      | true =>
        have hrun := copyFile_after_stream ho hc hio
        obtain ⟨⟨m0, hd1⟩, hf1⟩ := osCreate_spec hc
        obtain ⟨⟨c1, m1, hs1, hd2⟩, _⟩ := ioCopy_spec hd1 hio
        have hs1' : find fs1 src = some (.file c m) := (hf1 src hne c m).2 hsrc
        rw [hs1'] at hs1
        simp only [Option.some.injEq, Node.file.injEq] at hs1
        obtain ⟨hcc, _⟩ := hs1
        subst hcc
        rw [hrun]
        cases hst : osStat E fs2 src with
        | none => exact ⟨m0, hd2⟩
        | some mode =>
          simp only
          cases hch : osChmod E fs2 dst mode with
          | none => exact ⟨m0, hd2⟩
          | some fs3 =>
            obtain ⟨⟨c3, m3, h3a, h3b⟩, _⟩ := osChmod_spec hch
            rw [hd2] at h3a
            simp only [Option.some.injEq, Node.file.injEq] at h3a
            obtain ⟨hc3, _⟩ := h3a
            subst hc3
            exact ⟨mode, h3b⟩
  · simp [copyFile, ho] at hok

theorem RootWrite.getEntry_other {k : Name} {fs fs' : FS} (h : RootWrite k fs fs')
    (x : Name) (hx : k ≠ x) : getEntry fs' x = getEntry fs x := by
  have := h.find_other [x] (by simp) (by intro h0; simp at h0; exact hx h0.symm)
  simpa [find] using this

/-- A visit none of whose possible destinations is `x` leaves the entry `x` of
the root and its standing in `usedNames` as they were. -/
theorem pass1Fn_other (E : Env) (st : St) (v : Visit) (x : Name)
    (hv : v.isDir = false → v.path ≠ [] → ∀ k ∈ candidates v.path, k ≠ x) :
    getEntry (pass1Fn E none st v).2.fs x = getEntry st.fs x
    ∧ (pass1Fn E none st v).2.usedNames.contains x = st.usedNames.contains x := by
  by_cases h1 : v.path = []
  · rw [pass1Fn_skip E st v (Or.inl h1)]; exact ⟨rfl, rfl⟩
  · by_cases h2 : v.isDir = true
    · rw [pass1Fn_skip E st v (Or.inr h2)]; exact ⟨rfl, rfl⟩
    · have h2' : v.isDir = false := by simpa using h2
      obtain ⟨k, hk, ht⟩ := targetOf_spec E st v.path
      have hkx : k ≠ x := hv h2' h1 k hk
      rw [(pass1Fn_file E st v h1 h2').1, ht]
      refine ⟨(copyFile_root E st.fs v.path k).getEntry_other x hkx, ?_⟩
      have hxk : (x == k) = false := by simpa using fun h => hkx h.symm
      show (k :: st.usedNames).contains x = st.usedNames.contains x
      rw [List.contains_cons, hxk, Bool.false_or]

theorem walkWith_others (E : Env) (x : Name) : ∀ (vs : List Visit) (st : St),
    (∀ v ∈ vs, v.isDir = false → v.path ≠ [] → ∀ k ∈ candidates v.path, k ≠ x) →
    getEntry (walkWith (pass1Fn E none) st vs).2.fs x = getEntry st.fs x
    ∧ (walkWith (pass1Fn E none) st vs).2.usedNames.contains x = st.usedNames.contains x
  | [], st, _ => by simp [walkWith]
  | v :: vs, st, h => by
    have hstep := pass1Fn_other E st v x (h v (by simp))
    unfold walkWith
    rcases hfn : pass1Fn E none st v with ⟨r, st'⟩
    rw [hfn] at hstep
    cases r with
    | some e => exact hstep
    | none =>
      have ih := walkWith_others E x vs st' (fun v hv => h v (List.mem_cons_of_mem _ hv))
      exact ⟨ih.1.trans hstep.1, ih.2.trans hstep.2⟩

theorem walkWith_cons_ok {σ : Type} (fn : σ → Visit → Option Err × σ) (st : σ) (v : Visit)
    (vs : List Visit) (h : (walkWith fn st (v :: vs)).1 = none) :
    (fn st v).1 = none ∧ walkWith fn st (v :: vs) = walkWith fn (fn st v).2 vs := by
  simp only [walkWith] at h ⊢
  rcases hfn : fn st v with ⟨r, st'⟩
  rw [hfn] at h
  cases r with
  | some e => simp at h
  | none => exact ⟨rfl, rfl⟩

theorem walkWith_append_ok {σ : Type} (fn : σ → Visit → Option Err × σ) (st : σ)
    (pre rest : List Visit) (h : (walkWith fn st (pre ++ rest)).1 = none) :
    (walkWith fn st pre).1 = none
    ∧ walkWith fn st (pre ++ rest) = walkWith fn (walkWith fn st pre).2 rest := by
  rw [walkWith_append] at h ⊢
  rcases hp : walkWith fn st pre with ⟨r, st'⟩
  rw [hp] at h
  cases r with
  | some e => simp at h
  | none => exact ⟨rfl, rfl⟩

theorem setEntry_mem : ∀ (es : List (Name × Node)) (k : Name) (v : Node) (e : Name × Node),
    e ∈ setEntry es k v → e ∈ es ∨ e = (k, v)
  | [], k, v, e, h => by simp [setEntry] at h; exact Or.inr h
  | (k0, n0) :: rest, k, v, e, h => by
    unfold setEntry at h
    by_cases hk : k0 = k
    · simp only [hk, if_true, List.mem_cons] at h
      rcases h with h | h
      · exact Or.inr h
      · exact Or.inl (List.mem_cons_of_mem _ h)
    · simp only [hk, if_false, List.mem_cons] at h
      rcases h with h | h
      · exact Or.inl (by simp [h])
      · rcases setEntry_mem rest k v e h with h' | h'
        · exact Or.inl (List.mem_cons_of_mem _ h')
        · exact Or.inr h'

/-- A write directly under the root adds no directory. -/
theorem RootWrite.no_new_dir {k : Name} {fs fs' : FS} (h : RootWrite k fs fs') (x : Name)
    (hx : ∀ sub, (x, Node.dir sub) ∉ fs) : ∀ sub, (x, Node.dir sub) ∉ fs' := by
  rcases h with h | ⟨c, m, h, _⟩
  · subst h; exact hx
  · subst h
    intro sub hmem
    rcases setEntry_mem _ _ _ _ hmem with h' | h'
    · exact hx sub h'
    · simp at h'

theorem getEntry_ne_of_none {es : List (Name × Node)} {k : Name} (h : getEntry es k = none) :
    ∀ e ∈ es, e.1 ≠ k := by
  induction es with
  | nil => simp
  | cons e0 rest ih =>
    obtain ⟨k0, n0⟩ := e0
    unfold getEntry at h
    by_cases hk : k0 = k
    · simp [hk] at h
    · simp only [hk, if_false] at h
      intro e he
      simp only [List.mem_cons] at he
      rcases he with he | he
      · subst he; exact hk
      · exact ih h e he

theorem getEntry_filter_ne (es : List (Name × Node)) (k x : Name) (hx : k ≠ x) :
    getEntry (es.filter (fun e => decide (e.1 ≠ k))) x = getEntry es x := by
  induction es with
  | nil => rfl
  | cons e0 rest ih =>
    obtain ⟨k0, n0⟩ := e0
    by_cases hk : k0 = k
    · have hk0x : k0 ≠ x := by rw [hk]; exact hx
      simp [List.filter_cons, hk, getEntry, hk0x, hx]
      simpa [hk] using ih
    · simp only [List.filter_cons, ne_eq, hk, not_false_eq_true, decide_True, if_true, getEntry]
      by_cases hkx : k0 = x
      · simp [hkx]
      · simp only [hkx, if_false]
        exact ih

theorem getEntry_map_ne (es : List (Name × Node)) (k x : Name) (hx : k ≠ x)
    (f : Name × Node → Name × Node) (hf1 : ∀ e, (f e).1 = e.1) (hf2 : ∀ e, e.1 ≠ k → f e = e) :
    getEntry (es.map f) x = getEntry es x := by
  induction es with
  | nil => rfl
  | cons e0 rest ih =>
    obtain ⟨k0, n0⟩ := e0
    simp only [List.map_cons]
    by_cases hkx : k0 = x
    · have hk0 : k0 ≠ k := by rw [hkx]; exact fun h => hx h.symm
      rw [hf2 (k0, n0) hk0]
      simp [getEntry, hkx]
    · have h1 := hf1 (k0, n0)
      rcases hfe : f (k0, n0) with ⟨k1, n1⟩
      rw [hfe] at h1
      simp only at h1
      subst h1
      simp only [getEntry, hkx, if_false]
      exact ih

theorem remove_getEntry_other : ∀ (path : Path) (es : FS) (x : Name),
    (∀ t, path ≠ x :: t) → getEntry (remove es path) x = getEntry es x
  | [], _, _, _ => rfl
  | [k], es, x, h => by
    have hk : k ≠ x := fun hkx => h [] (by rw [hkx])
    simp only [remove]
    exact getEntry_filter_ne es k x hk
  | k :: k' :: ks, es, x, h => by
    have hk : k ≠ x := fun hkx => h (k' :: ks) (by rw [hkx])
    simp only [remove]
    apply getEntry_map_ne es k x hk
    · intro e
      obtain ⟨k0, n0⟩ := e
      by_cases h0 : k0 = k
      · cases n0 <;> simp [h0]
      · simp [h0]
    · intro e he
      simp [he]

/-- A run of removals none of which is at or below `x` keeps the entry `x`. -/
theorem removals_keep (E : Env) (x : Name) : ∀ (L : List Path) (fs : FS),
    (∀ d ∈ L, ∀ t, d ≠ x :: t) →
    getEntry (L.foldl (fun t d => (osRemoveAll E t d).2) fs) x = getEntry fs x
  | [], _, _ => rfl
  | d :: L, fs, h => by
    simp only [List.foldl_cons]
    rw [removals_keep E x L _ (fun d hd => h d (List.mem_cons_of_mem _ hd))]
    unfold osRemoveAll
    by_cases hf : E.removeFails d = true
    · simp only [hf, if_true]
    · simp only [hf, Bool.false_eq_true, if_false]
      exact remove_getEntry_other d fs x (h d (by simp))

theorem osStat_none_of_absent (E : Env) (fs : FS) (path : Path) (h : find fs path = none) :
    osStat E fs path = none := by
  unfold osStat
  by_cases hf : E.statFails path = true
  · simp [hf]
  · simp [hf, h]

theorem targetOf_no_collision (E : Env) (st : St) (path : Path)
    (h : ((osStat E st.fs [Base path]).isSome || st.usedNames.contains (Base path)) = false) :
    targetOf E st path = ([Base path], Base path :: st.usedNames) := by
  unfold targetOf
  simp only [h, Bool.false_eq_true, if_false]

theorem RootWrite.find_nested {k : Name} {fs fs' : FS} (h : RootWrite k fs fs')
    (d x : Name) : find fs' [d, x] = find fs [d, x] :=
  h.find_other [d, x] (by simp) (by simp)

/-- Pass 1 over a walk that meets `p/n`, then `q/n`, and no other file that
can get the name `n` or the name synthesized for `q/n`: the first gets the
name `n`, the second the synthesized name. -/
theorem pass1_two_files (E : Env) (fs : FS) (p q n : Name) (cp cq : List Nat) (mp mq : Nat)
    (l1 l2 l3 : List Visit)
    (hp : find fs [p, n] = some (.file cp mp))
    (hq : find fs [q, n] = some (.file cq mq))
    (hn : getEntry fs n = none)
    (hm : getEntry fs (newFileName n q) = none)
    (ho1 : ∀ v ∈ l1, v.isDir = false → v.path ≠ [] →
        ∀ k ∈ candidates v.path, k ≠ n ∧ k ≠ newFileName n q)
    (ho2 : ∀ v ∈ l2, v.isDir = false → v.path ≠ [] →
        ∀ k ∈ candidates v.path, k ≠ n ∧ k ≠ newFileName n q)
    (ho3 : ∀ v ∈ l3, v.isDir = false → v.path ≠ [] →
        ∀ k ∈ candidates v.path, k ≠ n ∧ k ≠ newFileName n q)
    (hok : (walkWith (pass1Fn E none) ⟨fs, []⟩
        (l1 ++ (⟨[p, n], false⟩ :: (l2 ++ (⟨[q, n], false⟩ :: l3))))).1 = none) :
    (∃ m, getEntry (walkWith (pass1Fn E none) ⟨fs, []⟩
        (l1 ++ (⟨[p, n], false⟩ :: (l2 ++ (⟨[q, n], false⟩ :: l3))))).2.fs n
          = some (.file cp m))
    ∧ (∃ m, getEntry (walkWith (pass1Fn E none) ⟨fs, []⟩
        (l1 ++ (⟨[p, n], false⟩ :: (l2 ++ (⟨[q, n], false⟩ :: l3))))).2.fs (newFileName n q)
          = some (.file cq m)) := by
  have hnm : n ≠ newFileName n q := fun h => newFileName_ne n q h.symm
  have hclos : ∀ (d : Name) (X : Option Node) (k : Name) (t t' : FS), RootWrite k t t' →
      find t [d, n] = X → find t' [d, n] = X :=
    fun d X k t t' hw ht => (hw.find_nested d n).trans ht
  -- phase 1: the visits before `p/n`
  obtain ⟨_, e1⟩ := walkWith_append_ok _ _ l1 _ hok
  have f1n := (walkWith_others E n l1 ⟨fs, []⟩ (fun v hv a b k hk => (ho1 v hv a b k hk).1))
  have f1m := (walkWith_others E (newFileName n q) l1 ⟨fs, []⟩
    (fun v hv a b k hk => (ho1 v hv a b k hk).2)).1
  have f1p := pass1_invariant E (fun t => find t [p, n] = some (.file cp mp))
    (hclos p _) l1 ⟨fs, []⟩ hp
  have f1q := pass1_invariant E (fun t => find t [q, n] = some (.file cq mq))
    (hclos q _) l1 ⟨fs, []⟩ hq
  rw [e1] at hok ⊢
  generalize (walkWith (pass1Fn E none) ⟨fs, []⟩ l1).2 = s1 at f1n f1m f1p f1q hok ⊢
  simp only at f1n f1m f1p f1q
  rw [hn] at f1n
  rw [hm] at f1m
  obtain ⟨f1n, f1u⟩ := f1n
  have f1u : s1.usedNames.contains n = false := by
    rw [f1u]; rfl
  -- the visit of `p/n`
  obtain ⟨ok2, e2⟩ := walkWith_cons_ok _ s1 ⟨[p, n], false⟩ _ hok
  have ht1 : targetOf E s1 [p, n] = ([n], n :: s1.usedNames) := by
    have := targetOf_no_collision E s1 [p, n] (by
      simp only [Base, f1u, Bool.or_false]
      rw [osStat_none_of_absent E s1.fs [n] (by simpa [find] using f1n)]
      rfl)
    simpa [Base] using this
  obtain ⟨est, hcopy⟩ := pass1Fn_file E s1 ⟨[p, n], false⟩ (by simp) rfl
  have hcopy' := hcopy ok2
  simp only [ht1] at est hcopy'
  have g1n := copyFile_ok_content hcopy' (by simp) f1p
  have hw1 := copyFile_root E s1.fs [p, n] n
  have g1m : getEntry (copyFile E s1.fs [p, n] [n]).2 (newFileName n q) = none :=
    (hw1.getEntry_other _ hnm).trans f1m
  have g1q : find (copyFile E s1.fs [p, n] [n]).2 [q, n] = some (.file cq mq) :=
    hclos q _ n _ _ hw1 f1q
  rw [e2] at hok ⊢
  rw [est] at hok ⊢
  generalize (copyFile E s1.fs [p, n] [n]).2 = t1 at g1n g1m g1q hok ⊢
  -- phase 2: the visits between `p/n` and `q/n`
  obtain ⟨_, e3⟩ := walkWith_append_ok _ _ l2 _ hok
  have f2n := (walkWith_others E n l2 ⟨t1, n :: s1.usedNames⟩
    (fun v hv a b k hk => (ho2 v hv a b k hk).1))
  have f2m := (walkWith_others E (newFileName n q) l2 ⟨t1, n :: s1.usedNames⟩
    (fun v hv a b k hk => (ho2 v hv a b k hk).2)).1
  have f2q := pass1_invariant E (fun t => find t [q, n] = some (.file cq mq))
    (hclos q _) l2 ⟨t1, n :: s1.usedNames⟩ g1q
  rw [e3] at hok ⊢
  generalize (walkWith (pass1Fn E none) ⟨t1, n :: s1.usedNames⟩ l2).2 = s2
    at f2n f2m f2q hok ⊢
  simp only at f2n f2m f2q
  rw [g1m] at f2m
  obtain ⟨f2n, f2u⟩ := f2n
  have f2u : s2.usedNames.contains n = true := by
    rw [f2u]; simp
  -- the visit of `q/n`
  obtain ⟨ok4, e4⟩ := walkWith_cons_ok _ s2 ⟨[q, n], false⟩ _ hok
  have ht2 : (targetOf E s2 [q, n]).1 = [newFileName n q] :=
    targetOf_collision_nested E s2 [] q n (by rw [f2u, Bool.or_true])
  obtain ⟨est2, hcopy2⟩ := pass1Fn_file E s2 ⟨[q, n], false⟩ (by simp) rfl
  have hcopy2' := hcopy2 ok4
  simp only [ht2] at est2 hcopy2'
  have g2m := copyFile_ok_content hcopy2' (by simp) f2q
  have hw2 := copyFile_root E s2.fs [q, n] (newFileName n q)
  have g2n : getEntry (copyFile E s2.fs [q, n] [newFileName n q]).2 n = getEntry t1 n :=
    (hw2.getEntry_other _ hnm.symm).trans f2n
  rw [e4] at hok ⊢
  rw [est2] at hok ⊢
  generalize (copyFile E s2.fs [q, n] [newFileName n q]).2 = t2 at g2n g2m hok ⊢
  generalize (targetOf E s2 [q, n]).2 = u2 at hok ⊢
  -- phase 3: the visits after `q/n`
  have f3n := (walkWith_others E n l3 ⟨t2, u2⟩
    (fun v hv a b k hk => (ho3 v hv a b k hk).1)).1
  have f3m := (walkWith_others E (newFileName n q) l3 ⟨t2, u2⟩
    (fun v hv a b k hk => (ho3 v hv a b k hk).2)).1
  simp only at f3n f3m
  obtain ⟨m1, hm1⟩ := g1n
  obtain ⟨m2, hm2⟩ := g2m
  refine ⟨⟨m1, ?_⟩, ⟨m2, ?_⟩⟩
  · rw [f3n, g2n]; simpa [find] using hm1
  · rw [f3m]; simpa [find] using hm2

/-- C5, amended: let the walk meet the regular file `p/n` and later the regular
file `q/n`, with `p` and `q` directly under the root, no entry named `n` and no
entry named `base_q+ext` directly under the root, and no other file that pass 1
could give the name `n` or the name `base_q+ext` (by its own name or by its
synthesized name). When `flattenDirectory` returns no error and the removals of
`p` and `q` do not fail, the root holds the bytes of `p/n` under the name `n`
and the bytes of `q/n` under the name `base_q+ext`, and `p` and `q` are gone. -/
theorem C5_two_directories (E : Env) (fs : FS) (p q n : Name) (cp cq : List Nat) (mp mq : Nat)
    (l1 l2 l3 : List Visit)
    (hwalk : Walk fs = l1 ++ (⟨[p, n], false⟩ :: (l2 ++ (⟨[q, n], false⟩ :: l3))))
    (hp : find fs [p, n] = some (.file cp mp))
    (hq : find fs [q, n] = some (.file cq mq))
    (hn : getEntry fs n = none)
    (hm : getEntry fs (newFileName n q) = none)
    (hothers : ∀ v ∈ l1 ++ l2 ++ l3, v.isDir = false → v.path ≠ [] →
        ∀ k ∈ candidates v.path, k ≠ n ∧ k ≠ newFileName n q)
    (hok : (flattenDirectory E fs).1 = none)
    (hrm : E.removeFails [p] = false ∧ E.removeFails [q] = false) :
    (∃ m, find (flattenDirectory E fs).2 [n] = some (.file cp m))
    ∧ (∃ m, find (flattenDirectory E fs).2 [newFileName n q] = some (.file cq m))
    ∧ find (flattenDirectory E fs).2 [p] = none
    ∧ find (flattenDirectory E fs).2 [q] = none := by
  obtain ⟨hp1, hres⟩ := flattenDirectory_ok hok
  have hpass : pass1 E fs = walkWith (pass1Fn E none) ⟨fs, []⟩
      (l1 ++ (⟨[p, n], false⟩ :: (l2 ++ (⟨[q, n], false⟩ :: l3)))) := by
    unfold pass1; rw [hwalk]
  have htwo := pass1_two_files E fs p q n cp cq mp mq l1 l2 l3 hp hq hn hm
    (fun v hv => hothers v (by simp [hv])) (fun v hv => hothers v (by simp [hv]))
    (fun v hv => hothers v (by simp [hv])) (by rw [← hpass]; exact hp1)
  rw [← hpass] at htwo
  -- what pass 1 keeps of the root listing
  have hnodir : ∀ x : Name, getEntry fs x = none →
      ∀ sub, (x, Node.dir sub) ∉ (pass1 E fs).2.fs := by
    intro x hx
    exact pass1_invariant E (fun t => ∀ sub, (x, Node.dir sub) ∉ t)
      (fun k t t' hw ht => hw.no_new_dir x ht) (Walk fs) ⟨fs, []⟩
      (fun sub hmem => getEntry_ne_of_none hx _ hmem rfl)
  have hdir : ∀ (d : Name) (c : List Nat) (m : Nat), find fs [d, n] = some (.file c m) →
      [d] ∈ collectDirectories (pass1 E fs).2.fs := by
    intro d c m hf
    have hsub : ∃ sub, getEntry fs d = some (.dir sub) := by
      unfold find at hf
      cases hg : getEntry fs d with
      | none => simp [hg] at hf
      | some nd =>
        cases nd with
        | file _ _ => simp [hg] at hf
        | dir sub => exact ⟨sub, rfl⟩
    obtain ⟨sub, hsub⟩ := hsub
    have := pass1_invariant E (fun t => getEntry t d = some (.dir sub))
      (fun k t t' hw ht => hw.getEntry_dir d sub ht) (Walk fs) ⟨fs, []⟩ hsub
    rw [collectDirectories_eq]
    have hmem := mem_dirPathsEntries_of_dir _ [] d sub (getEntry_mem _ _ _ this)
    simpa using hmem
  have hkeep : ∀ x : Name, getEntry fs x = none →
      getEntry (flattenDirectory E fs).2 x = getEntry (pass1 E fs).2.fs x := by
    intro x hx
    rw [hres]
    unfold removeLoop
    apply removals_keep
    intro d hd t hdt
    rw [List.mem_reverse, collectDirectories_eq] at hd
    obtain ⟨j, t', ⟨sub, hsub⟩, hj⟩ := dirPathsEntries_below _ [] d hd
    rw [hdt] at hj
    simp only [List.nil_append, List.cons.injEq] at hj
    rw [← hj.1] at hsub
    exact hnodir x hx sub hsub
  have hgone : ∀ d : Name, E.removeFails [d] = false →
      [d] ∈ collectDirectories (pass1 E fs).2.fs → find (flattenDirectory E fs).2 [d] = none := by
    intro d hd hmem
    rw [hres]
    unfold removeLoop
    simp only [find]
    apply getEntry_eq_none
    exact removals_gone E d hd _ _ (by simpa using hmem)
  refine ⟨?_, ?_, hgone p hrm.1 (hdir p cp mp hp), hgone q hrm.2 (hdir q cq mq hq)⟩
  · obtain ⟨m, h⟩ := htwo.1
    exact ⟨m, by simp only [find]; rw [hkeep n hn]; exact h⟩
  · obtain ⟨m, h⟩ := htwo.2
    exact ⟨m, by simp only [find]; rw [hkeep _ hm]; exact h⟩

/-- C5, amended, at the tree of the end-to-end scenario: the root holds
`a/x.txt`, `a/y.txt` and `b/x.txt`; it ends with exactly `x.txt`, `y.txt` and
`x_b.txt`, holding the bytes of `a/x.txt`, `a/y.txt` and `b/x.txt`, and neither
`a` nor `b`. -/
theorem C5_two_directories_witness :
    (∃ m, find (flattenDirectory noFaults treeProj).2 ["x.txt"] = some (.file [1] m))
    ∧ (∃ m, find (flattenDirectory noFaults treeProj).2 [newFileName "x.txt" "b"]
        = some (.file [3] m))
    ∧ find (flattenDirectory noFaults treeProj).2 ["a"] = none
    ∧ find (flattenDirectory noFaults treeProj).2 ["b"] = none
    ∧ newFileName "x.txt" "b" = "x_b.txt"
    ∧ rootFiles (flattenDirectory noFaults treeProj).2
        = [("x.txt", [1]), ("y.txt", [2]), ("x_b.txt", [3])]
    ∧ rootDirs (flattenDirectory noFaults treeProj).2 = [] :=
  have h := C5_two_directories noFaults treeProj "a" "b" "x.txt" [1] [3] 420 420
    [⟨[], true⟩, ⟨["a"], true⟩] [⟨["a", "y.txt"], false⟩, ⟨["b"], true⟩] []
    (by decide) rfl rfl rfl rfl (by decide) (by decide) ⟨rfl, rfl⟩
  ⟨h.1, h.2.1, h.2.2.1, h.2.2.2, by decide, by decide, by decide⟩

/-- C5 as stated fails: the root holds `a/x.txt`, `a/x_a.txt`, `b/x_a.txt` and
the file `x.txt`. The only files named `x_a.txt` lie in `a` and `b`, the walk
visits `a` first and the root has no entry `x_a.txt`; but `a/x.txt` collides
with the file `x.txt` and takes the name `x_a.txt` first, so the root ends with
the bytes of `a/x.txt` under `x_a.txt` and those of `a/x_a.txt` under
`x_a_a.txt`. -/
theorem C5_counterexample :
    ((Walk treeNameTaken).filter (fun v => !v.isDir)).map Visit.path
      = [["a", "x.txt"], ["a", "x_a.txt"], ["b", "x_a.txt"], ["x.txt"]]
    ∧ (getEntry treeNameTaken "x_a.txt").isNone = true
    ∧ readAll treeNameTaken ["a", "x_a.txt"] = some [2]
    ∧ readAll treeNameTaken ["b", "x_a.txt"] = some [3]
    ∧ (flattenDirectory noFaults treeNameTaken).1 = none
    ∧ readAll (flattenDirectory noFaults treeNameTaken).2 ["x_a.txt"] = some [1]
    ∧ readAll (flattenDirectory noFaults treeNameTaken).2 ["x_a.txt"] ≠ some [2]
    ∧ rootFiles (flattenDirectory noFaults treeNameTaken).2
        = [("x.txt", []), ("x_a.txt", [1]), ("x_a_a.txt", [2]), ("x_a_b.txt", [3])] := by
  decide

end Flatar
